import Mathlib

/-!
# A du-like file system utility (`main.cpp`): embedding and verified properties

The program walks a file tree with `lstat`/`readdir`, builds one `FileNode`
per entry, aggregates sizes into directories, optionally sorts the flat
collection `files`, and prints it in a compact or a detailed format.

Modelling conventions.
* The operating system is a finite tree `FsEntry`: what `lstat` answers for an
  entry and what the `readdir` loop yields for it.
* The global vector `files` and the six global flags are passed explicitly.
* `exit(1)` is the `Except.error` result, carrying the text written to `cerr`.
* Standard output is the `String` of everything written to `cout`/`printf`.

The program is embedded in two layers.
* The definitions without a qualifier (`read_file`, `print_files`, `main`, ...)
  follow the program on the runs in which `opendir` succeeds on every
  directory and no value leaves its range: `long` values are then exact
  integers and the `double` of the human readable size is an exact quotient.
* The definitions under `Machine` (`Machine.read_file`, `Machine.print_files`,
  `Machine.main`, ...) follow the program without these assumptions:
  `opendir` may return a null pointer, which the code hands to `readdir`
  unchecked; `long` arithmetic wraps around at 64 bits (signed overflow is
  undefined in C++, this is what the machine does); the conversion of a `long`
  to `double` rounds to 53 significant bits.
The theorems `machine_read_file_refines`, `machine_size_column_exact` and
`machine_main_refines` show that the two layers agree on the runs the first
one describes.
-/

namespace FsUtil

/-! ## Data model -/

/-- The fields of `struct stat` that the program reads. -/
structure Stat where
  st_mode : Nat
  st_size : Int
  st_blocks : Int
  st_atim : Int
  st_mtim : Int
  st_ctim : Int
  deriving DecidableEq, Repr

/-- One entry of the file tree as the system calls present it: the name
`readdir` reports, the answer of `lstat` (`none` when it fails), and the
entries the `readdir` loop yields when the entry is opened as a directory
(the list may hold `.` and `..`). -/
inductive FsEntry where
  | mk (d_name : String) (lstat : Option Stat) (readdir : List FsEntry)

/-- Name under which `readdir` reports the entry. -/
def FsEntry.d_name : FsEntry → String
  | .mk n _ _ => n

/-- Answer of `lstat` on the entry. -/
def FsEntry.lstat : FsEntry → Option Stat
  | .mk _ st _ => st

/-- Entries yielded by the `readdir` loop on the entry. -/
def FsEntry.readdir : FsEntry → List FsEntry
  | .mk _ _ es => es

/-- The class `FileNode`. -/
structure FileNode where
  statBuf : Stat
  children : List FileNode
  size : Int
  blocks : Int
  num_files : Int
  name : String

/-- The comparator `comp`: `one->size > two->size`. -/
def comp (one two : FileNode) : Bool := decide (one.size > two.size)

def BLOCK_SIZE : Int := 512
def KB : Int := 1024
def MB : Int := KB * 1024
def GB : Int := MB * 1024

/-- The six global output flags. -/
structure Flags where
  human_readable : Bool
  sort_by_size : Bool
  num_files : Bool
  verbose : Bool
  bytes : Bool
  all : Bool
  deriving DecidableEq, Repr

/-- Initial value of the flags: all `false`. -/
def Flags.init : Flags := ⟨false, false, false, false, false, false⟩

/-! ## File type tests of `<sys/stat.h>` (Linux values) -/

def S_IFMT : Nat := 0o170000

def S_ISDIR (m : Nat) : Bool := (m &&& S_IFMT) == 0o040000
def S_ISREG (m : Nat) : Bool := (m &&& S_IFMT) == 0o100000
def S_ISCHR (m : Nat) : Bool := (m &&& S_IFMT) == 0o020000
def S_ISBLK (m : Nat) : Bool := (m &&& S_IFMT) == 0o060000
def S_ISFIFO (m : Nat) : Bool := (m &&& S_IFMT) == 0o010000
def S_ISLNK (m : Nat) : Bool := (m &&& S_IFMT) == 0o120000
def S_ISSOCK (m : Nat) : Bool := (m &&& S_IFMT) == 0o140000

/-! ## `parse_input` -/

/-- One iteration of the loop of `parse_input` on `argv[i]`. -/
def parse_arg (acc : String × Flags) (arg : String) : String × Flags :=
  if arg = "-h" then (acc.1, { acc.2 with human_readable := true })
  else if arg = "-s" then (acc.1, { acc.2 with sort_by_size := true })
  else if arg = "-n" then (acc.1, { acc.2 with num_files := true })
  else if arg = "-v" then (acc.1, { acc.2 with verbose := true })
  else if arg = "-b" then (acc.1, { acc.2 with bytes := true })
  else if arg = "-a" then (acc.1, { acc.2 with all := true })
  else if arg.get 0 ≠ '-' then (arg, acc.2)
  else acc

/-- The function `parse_input`: the loop runs over `argv[1..argc-1]`; the
result is the returned path together with the flags it has set. -/
def parse_input (argv : List String) : String × Flags :=
  (argv.drop 1).foldl parse_arg ("", Flags.init)

/-! ## `read_file` -/

/-- The path `_path` that `read_file` computes from its two arguments. -/
def entry_path (path filename : String) : String :=
  if filename ≠ "" then path ++ "/" ++ filename else path

/-- The test of the `readdir` loop: the name is neither `.` nor `..`. -/
def not_dot (d_name : String) : Bool := d_name != "." && d_name != ".."

mutual
/-- The function `read_file`, run on the entry found at `path`/`filename`,
with the global vector `files` passed in and out.  An `lstat` failure is
`exit(1)`: the error carries the line written to `cerr`.  Here `opendir`
succeeds on every directory; `Machine.read_file` has the case in which it
does not. -/
def read_file (path filename : String) :
    FsEntry → List FileNode → Except String (FileNode × List FileNode)
  | .mk _ st entries, files =>
    match st with
    | none => .error ("Error: Failed to read file " ++ entry_path path filename ++ "\n")
    | some _statBuf =>
      let file : FileNode :=
        { statBuf := _statBuf, children := [], size := _statBuf.st_size,
          blocks := _statBuf.st_blocks, num_files := 0,
          name := entry_path path filename }
      if S_ISDIR _statBuf.st_mode then
        match read_dir (entry_path path filename) entries file files with
        | .error e => .error e
        | .ok (file1, files1) => .ok (file1, files1 ++ [file1])
      else .ok (file, files ++ [file])
/-- The `while (readdir)` loop of `read_file` over the remaining entries of
the directory `_path`, updating the directory's node `file`.  Here the totals
are exact; `Machine.read_dir` adds them in 64-bit `long`. -/
def read_dir (_path : String) :
    List FsEntry → FileNode → List FileNode → Except String (FileNode × List FileNode)
  | [], file, files => .ok (file, files)
  | (.mk d_name st es) :: rest, file, files =>
    if not_dot d_name then
      match read_file _path d_name (.mk d_name st es) files with
      | .error e => .error e
      | .ok (child, files1) =>
        read_dir _path rest
          { file with
            children := file.children ++ [child]
            size := file.size + child.size
            blocks := file.blocks + child.blocks
            num_files := file.num_files + (1 + child.num_files) }
          files1
    else read_dir _path rest file files
end

/-! ## Sorting -/

/-- The call `sort(files.begin(), files.end(), comp())`.  `std::sort` belongs
to the C++ library; it is modelled by insertion with the same comparator: `a`
goes before `b` unless `comp b a`.  The order of records of equal size is left
open by `std::sort`; the theorems below use only that the result is ordered by
`comp` and is a rearrangement of the input. -/
def std_sort (files : List FileNode) : List FileNode :=
  files.insertionSort (fun a b => comp b a = false)

/-! ## `print_files` -/

/-- Nearest natural number to `n / d` for `d > 0`, halves to the even
neighbour: the rounding `printf` applies to the exact value of a double. -/
def round_div (n d : Nat) : Nat :=
  let q := n / d
  let r := n % d
  if 2 * r < d then q
  else if d < 2 * r then q + 1
  else if q % 2 = 0 then q else q + 1

/-- Text of `printf("%.1f", x)` for the double `x = num / den` (`den > 0`). -/
def printf_1f (num den : Int) : String :=
  let tenths := round_div (num.natAbs * 10) den.natAbs
  (if num < 0 then "-" else "") ++ toString (tenths / 10) ++ "." ++ toString (tenths % 10)

/-- Text of `printf("%.0f", x)` for the double `x = num / den` (`den > 0`). -/
def printf_0f (num den : Int) : String :=
  (if num < 0 then "-" else "") ++ toString (round_div num.natAbs den.natAbs)

/-- The `human_readable` branch of `print_files`.  The double `size` is
`blocks * BLOCK_SIZE`, then divided by a power of two: both steps are exact
for block counts below `2^53`, so the double is the rational `bytes / unit`
and is kept as that pair.  `Machine.print_human` has the conversion of the
block count to `double` for all counts. -/
def print_human (blocks : Int) : String :=
  let size := blocks * BLOCK_SIZE
  if size > GB then
    if size < 10 * GB then printf_1f size GB ++ "G" ++ "\t" else printf_0f size GB ++ "G" ++ "\t"
  else if size > MB then
    if size < 10 * MB then printf_1f size MB ++ "M" ++ "\t" else printf_0f size MB ++ "M" ++ "\t"
  else
    if size < 10 * KB then printf_1f size KB ++ "K" ++ "\t" else printf_0f size KB ++ "K" ++ "\t"

/-- The size column written by `print_files` for one record, the product
`blocks * BLOCK_SIZE` being exact; `Machine.size_column` has it in 64-bit
`long`. -/
def size_column (fl : Flags) (f : FileNode) : String :=
  if fl.human_readable then print_human f.blocks
  else if fl.bytes then toString f.size ++ "\t"
  else toString (Int.tdiv (f.blocks * BLOCK_SIZE) KB) ++ "\t"

/-- The file count column written by `print_files` for one record. -/
def count_column (fl : Flags) (f : FileNode) : String :=
  if fl.num_files then
    if S_ISDIR f.statBuf.st_mode then toString f.num_files ++ "\t" else "\t"
  else ""

/-- The body of the loop of `print_files` for the record `f`, appending to
the text `out` written so far. -/
def print_file (fl : Flags) (out : String) (f : FileNode) : String :=
  if S_ISDIR f.statBuf.st_mode || fl.all then
    out ++ size_column fl f ++ count_column fl f ++ f.name ++ "\n"
  else out

/-- The function `print_files`: the text it writes to standard output. -/
def print_files (fl : Flags) (files : List FileNode) : String :=
  files.foldl (print_file fl) ""

/-! ## `print_verbose` -/

/-- The file type text written by `print_verbose`. -/
def type_label (m : Nat) : String :=
  if S_ISREG m then "regular, "
  else if S_ISREG m then "regular, "
  else if S_ISDIR m then "directory, "
  else if S_ISCHR m then "character device, "
  else if S_ISBLK m then "block device, "
  else if S_ISFIFO m then "FIFO, (named pipe) "
  else if S_ISLNK m then "symbolic link, "
  else if S_ISSOCK m then "socket, "
  else " ,"

/-- The body of the loop of `print_verbose` for the record `f`. -/
def print_verbose_file (out : String) (f : FileNode) : String :=
  out ++ f.name ++ ", " ++ toString f.size ++ ", " ++ toString f.blocks ++ ", "
    ++ type_label f.statBuf.st_mode
    ++ toString f.num_files ++ ", "
    ++ toString f.statBuf.st_atim ++ ", "
    ++ toString f.statBuf.st_mtim ++ ", "
    ++ toString f.statBuf.st_ctim ++ "\n"

/-- The header line of `print_verbose`. -/
def verbose_header : String :=
  "Name, Size (Bytes), Blocks (512B), File Type, Num Children, Last Access, "
    ++ "Last Modification, Last Status Change" ++ "\n"

/-- The function `print_verbose`: the text it writes to standard output. -/
def print_verbose (files : List FileNode) : String :=
  files.foldl print_verbose_file verbose_header

/-! ## `main` -/

/-- What a run of the program leaves behind. -/
structure Outcome where
  exit_code : Nat
  stdout : String
  stderr : String
  deriving DecidableEq, Repr

/-- The path `main` hands to `read_file`. -/
def root_path (argv : List String) : String :=
  if (parse_input argv).1 = "" then "." else (parse_input argv).1

/-- The collection `main` hands to the printing function. -/
def sort_step (fl : Flags) (files : List FileNode) : List FileNode :=
  if fl.sort_by_size then std_sort files else files

/-- The printing step of `main`. -/
def print_step (fl : Flags) (files : List FileNode) : String :=
  if fl.verbose then print_verbose files else print_files fl files

/-- The function `main`.  `fs path` is the file tree found at `path`.  The
closing `free_all` has no effect that can be observed and is left out. -/
def main (argv : List String) (fs : String → FsEntry) : Outcome :=
  match read_file (root_path argv) "" (fs (root_path argv)) [] with
  | .error msg => { exit_code := 1, stdout := "", stderr := msg }
  | .ok (_, files) =>
    { exit_code := 0
      stdout := print_step (parse_input argv).2 (sort_step (parse_input argv).2 files)
      stderr := "" }


/-! ## The file tree as the traversal sees it -/

/-- Whether `read_file` treats the entry as a directory. -/
def FsEntry.is_dir (t : FsEntry) : Bool :=
  match t.lstat with
  | some sb => S_ISDIR sb.st_mode
  | none => false

/-- The direct children of an entry in the file tree: the entries of a
directory other than `.` and `..`; an entry that is not a directory has none. -/
def FsEntry.kids (t : FsEntry) : List FsEntry :=
  if t.is_dir then t.readdir.filter (fun e => not_dot e.d_name) else []

/-- The records a call appends to `files` do not depend on what `files` held. -/
def Frame (t : FsEntry) : Prop :=
  ∀ p f fs c fs1, read_file p f t fs = .ok (c, fs1) →
    ∃ new, ∀ fs2, read_file p f t fs2 = .ok (c, fs2 ++ new)

/-- Own size of an entry: the `st_size` that `lstat` reports. -/
def FsEntry.st_size (t : FsEntry) : Int :=
  match t.lstat with
  | some sb => sb.st_size
  | none => 0

/-- Own block count of an entry: the `st_blocks` that `lstat` reports. -/
def FsEntry.st_blocks (t : FsEntry) : Int :=
  match t.lstat with
  | some sb => sb.st_blocks
  | none => 0

mutual
/-- All entries strictly below `t` in the file tree, at any depth, each listed
once (an entry comes before the entries below it). -/
def FsEntry.descendants : FsEntry → List FsEntry
  | .mk _ st es =>
    match st with
    | some sb => if S_ISDIR sb.st_mode then descendants_of es else []
    | none => []
/-- The entries of a directory listing other than `.` and `..`, each followed
by its own descendants. -/
def descendants_of : List FsEntry → List FsEntry
  | [] => []
  | e :: rest =>
    if not_dot e.d_name then e :: (e.descendants ++ descendants_of rest)
    else descendants_of rest
end

mutual
/-- The paths of all entries of the tree `t` found at `path`/`filename`: its
own path, then the paths of the entries below it. -/
def FsEntry.paths (path filename : String) : FsEntry → List String
  | .mk _ st es =>
    entry_path path filename ::
      (match st with
       | some sb =>
         if S_ISDIR sb.st_mode then paths_of (entry_path path filename) es else []
       | none => [])
/-- The paths of the entries listed in the directory `_path` (other than `.`
and `..`) and of everything below them. -/
def paths_of (_path : String) : List FsEntry → List String
  | [] => []
  | e :: rest =>
    if not_dot e.d_name then e.paths _path e.d_name ++ paths_of _path rest
    else paths_of _path rest
end

mutual
/-- Whether `lstat` succeeds on the entry and on every entry below it. -/
def FsEntry.lstat_ok : FsEntry → Bool
  | .mk _ st es =>
    match st with
    | some sb => if S_ISDIR sb.st_mode then lstat_ok_all es else true
    | none => false
/-- Whether `lstat` succeeds on every listed entry other than `.` and `..`
and on everything below them. -/
def lstat_ok_all : List FsEntry → Bool
  | [] => true
  | e :: rest =>
    if not_dot e.d_name then e.lstat_ok && lstat_ok_all rest
    else lstat_ok_all rest
end

/-- A file name as a file system hands it out: not empty and without `/`. -/
def valid_name (s : String) : Bool := s != "" && !(s.data.contains '/')

mutual
/-- Whether the tree is named as a real file tree is: in every directory the
listed names (other than `.` and `..`) are valid and pairwise distinct. -/
def FsEntry.well_named : FsEntry → Bool
  | .mk _ st es =>
    match st with
    | some sb =>
      if S_ISDIR sb.st_mode then
        well_named_all es &&
          decide (((es.filter (fun e => not_dot e.d_name)).map FsEntry.d_name).Nodup)
      else true
    | none => true
/-- Whether the listed entries other than `.` and `..` have valid names and
are well named themselves. -/
def well_named_all : List FsEntry → Bool
  | [] => true
  | e :: rest =>
    if not_dot e.d_name then valid_name e.d_name && e.well_named && well_named_all rest
    else well_named_all rest
end

/-- The totals a record carries, in terms of the file tree below its entry. -/
def Totals (t : FsEntry) : Prop :=
  ∀ p f fs node fs1, read_file p f t fs = .ok (node, fs1) →
    node.size = t.st_size + (t.descendants.map FsEntry.st_size).sum ∧
    node.blocks = t.st_blocks + (t.descendants.map FsEntry.st_blocks).sum ∧
    node.num_files = (t.descendants.length : Int)

/-! ## A small file tree used to exercise the theorems

A directory `root` holding one regular file of 100 bytes in 8 blocks and one
empty directory. -/

def ex_dir_stat : Stat :=
  { st_mode := 0o040755, st_size := 4096, st_blocks := 8,
    st_atim := 10, st_mtim := 20, st_ctim := 30 }

def ex_file_stat : Stat :=
  { st_mode := 0o100644, st_size := 100, st_blocks := 8,
    st_atim := 11, st_mtim := 21, st_ctim := 31 }

def ex_file : FsEntry := .mk "a.txt" (some ex_file_stat) []

def ex_sub : FsEntry :=
  .mk "sub" (some ex_dir_stat) [.mk "." (some ex_dir_stat) [], .mk ".." (some ex_dir_stat) []]

def ex_tree : FsEntry :=
  .mk "" (some ex_dir_stat)
    [.mk "." (some ex_dir_stat) [], .mk ".." none [], ex_file, ex_sub]

def ex_file_node : FileNode :=
  { statBuf := ex_file_stat, children := [], size := 100, blocks := 8, num_files := 0,
    name := "root/a.txt" }

def ex_sub_node : FileNode :=
  { statBuf := ex_dir_stat, children := [], size := 4096, blocks := 8, num_files := 0,
    name := "root/sub" }

def ex_root_node : FileNode :=
  { statBuf := ex_dir_stat, children := [ex_file_node, ex_sub_node], size := 8292,
    blocks := 24, num_files := 2, name := "root" }

def ex_files : List FileNode := [ex_file_node, ex_sub_node, ex_root_node]

/-- The records one call appends, against the tree it walks. -/
def Collected (t : FsEntry) : Prop :=
  ∀ p f node new, read_file p f t [] = .ok (node, new) →
    (new.map FileNode.name).Perm (t.paths p f) ∧ (new.length : Int) = 1 + node.num_files

/-- What may follow a path inside a longer one: nothing, or `/` and more. -/
def PathTail (tl : List Char) : Prop := tl = [] ∨ ∃ r, tl = '/' :: r

/-- In a well named tree the paths are pairwise distinct, and each one is the
path of the root of the tree, possibly continued by `/` and more. -/
def DistinctPaths (t : FsEntry) : Prop :=
  ∀ p f, t.well_named = true →
    (t.paths p f).Nodup ∧
    ∀ s ∈ t.paths p f, ∃ tl, s.data = (entry_path p f).data ++ tl ∧ PathTail tl

/-- Whether `print_files` shows the record: it is a directory, or `-a` is set. -/
def shown (fl : Flags) (f : FileNode) : Bool := S_ISDIR f.statBuf.st_mode || fl.all

/-- The line `print_files` writes for a record it shows. -/
def record_line (fl : Flags) (f : FileNode) : String :=
  size_column fl f ++ count_column fl f ++ f.name ++ "\n"

/-- The text made of the given lines, one after the other. -/
def lines_text (ls : List String) : String := ls.foldr (fun l acc => l ++ acc) ""

/-- A tree in which `lstat` fails two levels below the root. -/
def ex_bad_tree : FsEntry :=
  .mk "" (some ex_dir_stat)
    [ex_file, .mk "sub" (some ex_dir_stat) [.mk "gone" none []]]

/-- A call of `read_file` on the tree returns exactly when `lstat` succeeds on
every entry of the tree. -/
def ReturnsIffStat (t : FsEntry) : Prop :=
  ∀ p f fs, (∃ r, read_file p f t fs = .ok r) ↔ t.lstat_ok = true

/-- The natural number `n` is a nearest integer to the quotient `num / den`. -/
def nearest_to (n : Nat) (num den : Int) : Prop := 2 * |num - (n : Int) * den| ≤ den

/-- The flags after `-h` alone. -/
def flags_h : Flags := { Flags.init with human_readable := true }

/-- A directory record whose allocated space is 4096 blocks, 2097152 bytes. -/
def ex_two_mib_node : FileNode :=
  { statBuf := ex_dir_stat, children := [], size := 2097152, blocks := 4096, num_files := 0,
    name := "big" }

/-- The line `print_verbose` writes for a record. -/
def verbose_line (f : FileNode) : String :=
  f.name ++ ", " ++ toString f.size ++ ", " ++ toString f.blocks ++ ", "
    ++ type_label f.statBuf.st_mode
    ++ toString f.num_files ++ ", "
    ++ toString f.statBuf.st_atim ++ ", "
    ++ toString f.statBuf.st_mtim ++ ", "
    ++ toString f.statBuf.st_ctim ++ "\n"

/-- The eight fields of a record joined by comma and space, with `label` as
the file type. -/
def comma_space_line (f : FileNode) (label : String) : String :=
  String.intercalate ", "
    [f.name, toString f.size, toString f.blocks, label, toString f.num_files,
      toString f.statBuf.st_atim, toString f.statBuf.st_mtim, toString f.statBuf.st_ctim]
    ++ "\n"

/-- The record of a named pipe. -/
def ex_fifo_node : FileNode :=
  { statBuf := { st_mode := 0o010644, st_size := 0, st_blocks := 0,
                 st_atim := 12, st_mtim := 22, st_ctim := 32 },
    children := [], size := 0, blocks := 0, num_files := 0, name := "root/pipe" }

/-- The record of an entry whose file type bits match no known kind. -/
def ex_unknown_node : FileNode :=
  { statBuf := { st_mode := 0o000644, st_size := 0, st_blocks := 0,
                 st_atim := 13, st_mtim := 23, st_ctim := 33 },
    children := [], size := 0, blocks := 0, num_files := 0, name := "root/odd" }

/-- The flags after `-v`. -/
def flags_v : Flags := { Flags.init with verbose := true }

/-! ## Notions used to state `parse_input` -/

/-- Whether the argument is one of the six recognised flags. -/
def is_flag (a : String) : Bool :=
  a == "-h" || a == "-s" || a == "-n" || a == "-v" || a == "-b" || a == "-a"

/-- Whether the argument is neither a recognised flag nor begins with `-`. -/
def is_path_arg (a : String) : Bool := !is_flag a && a.get 0 != '-'

/-- Whether the argument begins with `-` without being a recognised flag. -/
def is_unknown_dash (a : String) : Bool := a.get 0 == '-' && !is_flag a

/-- The last command line argument (after the program name) that neither is
a recognised flag nor begins with `-`, when there is one. -/
def last_path_arg (argv : List String) : Option String :=
  ((argv.drop 1).filter is_path_arg).getLast?

/-! ## Notions used to state the order of the flat collection -/

mutual
/-- The paths of the entries of the tree `t` found at `path`/`filename` in
post-order: the paths of the trees of the direct children, one tree after the
other in listing order, then the path of `t` itself. -/
def FsEntry.post_paths (path filename : String) : FsEntry → List String
  | .mk _ st es =>
    (match st with
     | some sb =>
       if S_ISDIR sb.st_mode then post_paths_of (entry_path path filename) es else []
     | none => []) ++ [entry_path path filename]
/-- The post-order paths of the trees of the entries listed in the directory
`_path`, other than `.` and `..`. -/
def post_paths_of (_path : String) : List FsEntry → List String
  | [] => []
  | e :: rest =>
    if not_dot e.d_name then e.post_paths _path e.d_name ++ post_paths_of _path rest
    else post_paths_of _path rest
end

/-- The records one call appends are named by the post-order paths of the
tree it walks. -/
def PostOrder (t : FsEntry) : Prop :=
  ∀ p f node new, read_file p f t [] = .ok (node, new) →
    new.map FileNode.name = t.post_paths p f

/-- The lines the printing step of `main` writes for a collection. -/
def output_lines (fl : Flags) (files : List FileNode) : List String :=
  if fl.verbose then verbose_header :: files.map verbose_line
  else (files.filter (shown fl)).map (record_line fl)

/-! ## The program on the 64-bit machine

The definitions above follow the program on the runs in which `opendir`
succeeds on every directory and no value leaves its range.  The definitions
of this section, under `Machine`, drop both assumptions: `opendir` may return
a null pointer, `long` arithmetic wraps around at 64 bits, and the conversion
of a `long` to `double` rounds. -/

/-- The value a 64-bit `long` holds after an operation whose exact result is
`x`: two's complement wrap-around. -/
def wrap_long (x : Int) : Int :=
  (x + 9223372036854775808) % 18446744073709551616 - 9223372036854775808

/-- Whether `x` is a value of a 64-bit `long`. -/
def in_long (x : Int) : Bool :=
  decide (-9223372036854775808 ≤ x) && decide (x < 9223372036854775808)

/-- The distance between neighbouring doubles around the natural number `a`:
1 below `2^53`, doubling with every further bit. -/
def double_ulp : Nat → Nat → Nat
  | 0, _ => 1
  | fuel + 1, a => if a < 9007199254740992 then 1 else 2 * double_ulp fuel (a / 2)

/-- The value of `(double) n` for a `long` `n`: `n` itself while it has at most
53 significant bits, otherwise the nearest multiple of the distance between
doubles, halves to the even neighbour. -/
def to_double (n : Int) : Int :=
  let ulp := double_ulp 64 n.natAbs
  (if n < 0 then -1 else 1) * ((round_div n.natAbs ulp * ulp : Nat) : Int)

/-- How a run can stop inside `read_file`. -/
inductive Abort where
  /-- The call `exit(1)` after `lstat` failed; `cerr` is the line written to the error stream. -/
  | exit_1 (cerr : String)
  /-- The call `readdir(dirPtr)` with the null pointer a failed `opendir` returned: undefined. -/
  | null_readdir
  deriving DecidableEq, Repr

mutual
/-- The function `read_file` on the machine.  `opens _path` tells whether
`opendir(_path)` succeeds; its result is not checked by the code, so a null
pointer reaches `readdir`. -/
def Machine.read_file (opens : String → Bool) (path filename : String) :
    FsEntry → List FileNode → Except Abort (FileNode × List FileNode)
  | .mk _ st entries, files =>
    match st with
    | none =>
      .error (.exit_1 ("Error: Failed to read file " ++ entry_path path filename ++ "\n"))
    | some _statBuf =>
      let file : FileNode :=
        { statBuf := _statBuf, children := [], size := _statBuf.st_size,
          blocks := _statBuf.st_blocks, num_files := 0,
          name := entry_path path filename }
      if S_ISDIR _statBuf.st_mode then
        if opens (entry_path path filename) then
          match Machine.read_dir opens (entry_path path filename) entries file files with
          | .error e => .error e
          | .ok (file1, files1) => .ok (file1, files1 ++ [file1])
        else .error .null_readdir
      else .ok (file, files ++ [file])
/-- The `while (readdir)` loop of `read_file` on the machine: the three totals
are added in `long`. -/
def Machine.read_dir (opens : String → Bool) (_path : String) :
    List FsEntry → FileNode → List FileNode → Except Abort (FileNode × List FileNode)
  | [], file, files => .ok (file, files)
  | (.mk d_name st es) :: rest, file, files =>
    if not_dot d_name then
      match Machine.read_file opens _path d_name (.mk d_name st es) files with
      | .error e => .error e
      | .ok (child, files1) =>
        Machine.read_dir opens _path rest
          { file with
            children := file.children ++ [child]
            size := wrap_long (file.size + child.size)
            blocks := wrap_long (file.blocks + child.blocks)
            num_files := wrap_long (file.num_files + wrap_long (1 + child.num_files)) }
          files1
    else Machine.read_dir opens _path rest file files
end

/-- The `human_readable` branch of `print_files` on the machine: `size` is the
double `(double) blocks`, multiplied by `BLOCK_SIZE` and divided by a power of
two, both exactly; it is kept as the pair `bytes / unit`. -/
def Machine.print_human (blocks : Int) : String :=
  let size := to_double blocks * BLOCK_SIZE
  if size > GB then
    if size < 10 * GB then printf_1f size GB ++ "G" ++ "\t" else printf_0f size GB ++ "G" ++ "\t"
  else if size > MB then
    if size < 10 * MB then printf_1f size MB ++ "M" ++ "\t" else printf_0f size MB ++ "M" ++ "\t"
  else
    if size < 10 * KB then printf_1f size KB ++ "K" ++ "\t" else printf_0f size KB ++ "K" ++ "\t"

/-- The size column written by `print_files` on the machine: the product
`blocks * BLOCK_SIZE` of the default branch is a `long`. -/
def Machine.size_column (fl : Flags) (f : FileNode) : String :=
  if fl.human_readable then Machine.print_human f.blocks
  else if fl.bytes then toString f.size ++ "\t"
  else toString (Int.tdiv (wrap_long (f.blocks * BLOCK_SIZE)) KB) ++ "\t"

/-- The body of the loop of `print_files` on the machine. -/
def Machine.print_file (fl : Flags) (out : String) (f : FileNode) : String :=
  if S_ISDIR f.statBuf.st_mode || fl.all then
    out ++ Machine.size_column fl f ++ count_column fl f ++ f.name ++ "\n"
  else out

/-- The function `print_files` on the machine. -/
def Machine.print_files (fl : Flags) (files : List FileNode) : String :=
  files.foldl (Machine.print_file fl) ""

/-- The printing step of `main` on the machine; `print_verbose` does no
arithmetic and is the one above. -/
def Machine.print_step (fl : Flags) (files : List FileNode) : String :=
  if fl.verbose then print_verbose files else Machine.print_files fl files

/-- The function `main` on the machine.  The result is `none` when the run
reaches `readdir` with a null pointer: it then has no defined exit code. -/
def Machine.main (argv : List String) (fs : String → FsEntry) (opens : String → Bool) :
    Option Outcome :=
  match Machine.read_file opens (root_path argv) "" (fs (root_path argv)) [] with
  | .error (.exit_1 msg) => some { exit_code := 1, stdout := "", stderr := msg }
  | .error .null_readdir => none
  | .ok (_, files) =>
    some
      { exit_code := 0
        stdout := Machine.print_step (parse_input argv).2 (sort_step (parse_input argv).2 files)
        stderr := "" }

mutual
/-- Whether `opendir` succeeds on every directory of the tree found at
`path`/`filename`. -/
def FsEntry.dirs_open (opens : String → Bool) (path filename : String) : FsEntry → Bool
  | .mk _ st es =>
    match st with
    | some sb =>
      if S_ISDIR sb.st_mode then
        opens (entry_path path filename) && dirs_open_all opens (entry_path path filename) es
      else true
    | none => true
/-- Whether `opendir` succeeds on every directory at or below the entries
listed in the directory `_path`, other than `.` and `..`. -/
def dirs_open_all (opens : String → Bool) (_path : String) : List FsEntry → Bool
  | [] => true
  | e :: rest =>
    if not_dot e.d_name then
      e.dirs_open opens _path e.d_name && dirs_open_all opens _path rest
    else dirs_open_all opens _path rest
end

/-- A regular file of `2^62` bytes that occupies 8 blocks (a sparse file). -/
def ex_sparse_stat : Stat :=
  { st_mode := 0o100644, st_size := 4611686018427387904, st_blocks := 8,
    st_atim := 14, st_mtim := 24, st_ctim := 34 }

/-- A directory holding two sparse files of `2^62` bytes each. -/
def ex_sparse_tree : FsEntry :=
  .mk "" (some ex_dir_stat)
    [.mk "." (some ex_dir_stat) [], .mk ".." (some ex_dir_stat) [],
     .mk "a.img" (some ex_sparse_stat) [], .mk "b.img" (some ex_sparse_stat) []]

/-- The records a call on the machine appends to `files` do not depend on
what `files` held. -/
def MachineFrame (opens : String → Bool) (t : FsEntry) : Prop :=
  ∀ p f fs c fs1, Machine.read_file opens p f t fs = .ok (c, fs1) →
    ∃ new, ∀ fs2, Machine.read_file opens p f t fs2 = .ok (c, fs2 ++ new)

/-- The record the machine builds for a sparse file of `ex_sparse_tree`. -/
def ex_sparse_node (name : String) : FileNode :=
  { statBuf := ex_sparse_stat, children := [], size := 4611686018427387904, blocks := 8,
    num_files := 0, name := name }

/-- The record the machine builds for the root of `ex_sparse_tree`: the sum
`4096 + 2^62 + 2^62` has left the range of `long`. -/
def ex_sparse_root_node : FileNode :=
  { statBuf := ex_dir_stat
    children := [ex_sparse_node "root/a.img", ex_sparse_node "root/b.img"]
    size := -9223372036854771712, blocks := 24, num_files := 2, name := "root" }

/-- The totals a record carries on the machine agree, up to wrap-around at 64
bits, with the sums over the file tree below its entry. -/
def MachineTotals (opens : String → Bool) (t : FsEntry) : Prop :=
  ∀ p f fs node fs1, Machine.read_file opens p f t fs = .ok (node, fs1) →
    wrap_long node.size
      = wrap_long (t.st_size + (t.descendants.map FsEntry.st_size).sum) ∧
    wrap_long node.blocks
      = wrap_long (t.st_blocks + (t.descendants.map FsEntry.st_blocks).sum) ∧
    wrap_long node.num_files = wrap_long (t.descendants.length : Int)

/-- The system call that fails first in traversal order, when one fails. -/
inductive Failure where
  | lstat
  | opendir
  deriving DecidableEq, Repr

mutual
/-- The first failing call the traversal of the tree found at
`path`/`filename` meets: `lstat` on an entry it reaches, or `opendir` on a
directory it reaches; `none` when it meets no failure. -/
def FsEntry.first_failure (opens : String → Bool) (path filename : String) :
    FsEntry → Option Failure
  | .mk _ st es =>
    match st with
    | none => some .lstat
    | some sb =>
      if S_ISDIR sb.st_mode then
        if opens (entry_path path filename) then
          first_failure_all opens (entry_path path filename) es
        else some .opendir
      else none
/-- The first failing call met below the entries listed in the directory
`_path`, taken in listing order, `.` and `..` left out. -/
def first_failure_all (opens : String → Bool) (_path : String) :
    List FsEntry → Option Failure
  | [] => none
  | e :: rest =>
    if not_dot e.d_name then
      match e.first_failure opens _path e.d_name with
      | some x => some x
      | none => first_failure_all opens _path rest
    else first_failure_all opens _path rest
end

/-- How a call of `read_file` on the machine ended. -/
def stop_kind : Except Abort (FileNode × List FileNode) → Option Failure
  | .ok _ => none
  | .error (.exit_1 _) => some .lstat
  | .error .null_readdir => some .opendir

/-- A call of `read_file` on the machine ends as the first failure of the
tree says. -/
def MachineStops (opens : String → Bool) (t : FsEntry) : Prop :=
  ∀ p f fs, stop_kind (Machine.read_file opens p f t fs) = t.first_failure opens p f

/-- The tree meets no failure exactly when every `lstat` succeeds and every
directory opens. -/
def NoFailure (opens : String → Bool) (t : FsEntry) : Prop :=
  ∀ p f,
    (t.first_failure opens p f = none ↔
      (t.lstat_ok = true ∧ t.dirs_open opens p f = true)) ∧
    (t.first_failure opens p f = some .lstat → t.lstat_ok = false) ∧
    (t.first_failure opens p f = some .opendir → t.dirs_open opens p f = false)

/-- A directory record of `2^53 + 2^20 + 1` blocks: the conversion of this
count to `double` rounds it to `2^53 + 2^20`. -/
def ex_rounded_node : FileNode :=
  { statBuf := ex_dir_stat, children := [], size := 4096, blocks := 9007199255789569,
    num_files := 0, name := "big" }

/-- Whether the three totals of a record are values of a 64-bit `long`. -/
def fits_long (r : FileNode) : Bool :=
  in_long r.size && in_long r.blocks && in_long r.num_files

/-- On a tree whose directories all open and whose records all hold values of
a `long`, the machine returns what `read_file` above returns. -/
def Refines (opens : String → Bool) (t : FsEntry) : Prop :=
  ∀ p f node new, t.dirs_open opens p f = true →
    read_file p f t [] = .ok (node, new) → (∀ r ∈ new, fits_long r = true) →
    Machine.read_file opens p f t [] = .ok (node, new)

/-! ## Theorems -/

/-- Induction over file trees: a property holds of every entry when it holds
of an entry as soon as it holds of all entries listed under it. -/
theorem FsEntry.induct {P : FsEntry → Prop}
    (h : ∀ n st es, (∀ e ∈ es, P e) → P (.mk n st es)) (t : FsEntry) : P t := by
  refine FsEntry.rec (motive_1 := P) (motive_2 := fun es => ∀ e ∈ es, P e) ?_ ?_ ?_ t
  · intro n st es ih
    exact h n st es ih
  · intro e he
    cases he
  · intro hd tl ihd itl e he
    rcases List.mem_cons.mp he with rfl | he
    · exact ihd
    · exact itl e he

theorem read_dir_frame (p : String) :
    ∀ es, (∀ e ∈ es, Frame e) → ∀ file fs file1 fs1,
      read_dir p es file fs = .ok (file1, fs1) →
      ∃ new, ∀ fs2, read_dir p es file fs2 = .ok (file1, fs2 ++ new) := by
  intro es
  induction es with
  | nil =>
    intro _ file fs file1 fs1 h
    simp only [read_dir, Except.ok.injEq, Prod.mk.injEq] at h
    refine ⟨[], fun fs2 => ?_⟩
    simp [read_dir, h.1]
  | cons e rest ih =>
    intro hall file fs file1 fs1 h
    obtain ⟨n, st, es1⟩ := e
    have hrest : ∀ e ∈ rest, Frame e := fun e he => hall e (List.mem_cons_of_mem _ he)
    simp only [read_dir] at h
    by_cases hd : not_dot n = true
    · simp only [hd, if_true] at h
      cases hr : read_file p n (.mk n st es1) fs with
      | error msg => simp [hr] at h
      | ok r =>
        obtain ⟨child, fsa⟩ := r
        simp only [hr] at h
        obtain ⟨new1, h1⟩ := hall _ (List.mem_cons_self _ _) p n fs child fsa hr
        obtain ⟨new2, h2⟩ := ih hrest _ _ _ _ h
        refine ⟨new1 ++ new2, fun fs2 => ?_⟩
        simp only [read_dir, hd, if_true, h1 fs2, h2 (fs2 ++ new1), List.append_assoc]
    · simp only [hd] at h
      obtain ⟨new2, h2⟩ := ih hrest _ _ _ _ h
      refine ⟨new2, fun fs2 => ?_⟩
      simp only [read_dir, hd, h2 fs2]
      rfl

theorem read_file_frame (t : FsEntry) : Frame t := by
  induction t using FsEntry.induct with
  | h n st es ih =>
    intro p f fs c fs1 h
    cases st with
    | none => simp [read_file] at h
    | some sb =>
      simp only [read_file] at h
      by_cases hd : S_ISDIR sb.st_mode = true
      · simp only [hd, if_true] at h
        cases hr : read_dir (entry_path p f) es
            { statBuf := sb, children := [], size := sb.st_size, blocks := sb.st_blocks,
              num_files := 0, name := entry_path p f } fs with
        | error msg => simp [hr] at h
        | ok r =>
          obtain ⟨file1, fsa⟩ := r
          simp only [hr, Except.ok.injEq, Prod.mk.injEq] at h
          obtain ⟨new, hn⟩ := read_dir_frame _ es ih _ _ _ _ hr
          refine ⟨new ++ [c], fun fs2 => ?_⟩
          simp only [read_file, hd, if_true, hn fs2, h.1, List.append_assoc]
      · simp only [hd] at h
        simp only [Bool.false_eq_true, if_false, Except.ok.injEq, Prod.mk.injEq] at h
        refine ⟨[c], fun fs2 => ?_⟩
        simp only [read_file, hd, Bool.false_eq_true, if_false, h.1]


/-- A successful call returns its record and leaves `files` extended. -/
theorem read_file_from_nil {p f : String} {t : FsEntry} {fs fs1 : List FileNode}
    {c : FileNode} (h : read_file p f t fs = .ok (c, fs1)) :
    ∃ new, read_file p f t [] = .ok (c, new) ∧ fs1 = fs ++ new ∧
      ∀ fs2, read_file p f t fs2 = .ok (c, fs2 ++ new) := by
  obtain ⟨new, hn⟩ := read_file_frame t p f fs c fs1 h
  refine ⟨new, ?_, ?_, hn⟩
  · simpa using hn []
  · have := hn fs
    rw [h] at this
    simpa using this

/-- What the `readdir` loop does to the directory's node and to `files`:
`rs` lists, for each entry other than `.` and `..`, the result of `read_file`
on it. -/
theorem read_dir_spec (p : String) :
    ∀ es file fs file1 fs1, read_dir p es file fs = .ok (file1, fs1) →
      ∃ rs : List (FileNode × List FileNode),
        List.Forall₂ (fun e r => read_file p e.d_name e [] = .ok r)
          (es.filter (fun e => not_dot e.d_name)) rs ∧
        file1.statBuf = file.statBuf ∧ file1.name = file.name ∧
        file1.children = file.children ++ rs.map Prod.fst ∧
        file1.size = file.size + (rs.map (fun r => r.1.size)).sum ∧
        file1.blocks = file.blocks + (rs.map (fun r => r.1.blocks)).sum ∧
        file1.num_files = file.num_files + (rs.map (fun r => 1 + r.1.num_files)).sum ∧
        fs1 = fs ++ (rs.map Prod.snd).flatten := by
  intro es
  induction es with
  | nil =>
    intro file fs file1 fs1 h
    simp only [read_dir, Except.ok.injEq, Prod.mk.injEq] at h
    obtain ⟨rfl, rfl⟩ := h
    exact ⟨[], by simp⟩
  | cons e rest ih =>
    intro file fs file1 fs1 h
    obtain ⟨n, st, es1⟩ := e
    simp only [read_dir] at h
    by_cases hd : not_dot n = true
    · simp only [hd, if_true] at h
      cases hr : read_file p n (.mk n st es1) fs with
      | error msg => simp [hr] at h
      | ok r =>
        obtain ⟨child, fsa⟩ := r
        simp only [hr] at h
        obtain ⟨new, hnil, hfsa, -⟩ := read_file_from_nil hr
        obtain ⟨rs, hall, h1, h2, h3, h4, h5, h6, h7⟩ := ih _ _ _ _ h
        refine ⟨(child, new) :: rs, ?_, ?_, ?_, ?_, ?_, ?_, ?_, ?_⟩
        · simp only [List.filter, FsEntry.d_name, hd]
          exact List.Forall₂.cons hnil hall
        · simpa using h1
        · simpa using h2
        · simpa using h3
        · simp only [h4, List.map_cons, List.sum_cons]; ring
        · simp only [h5, List.map_cons, List.sum_cons]; ring
        · simp only [h6, List.map_cons, List.sum_cons]; ring
        · simp [h7, hfsa]
    · simp only [hd] at h
      obtain ⟨rs, hall, hrest⟩ := ih _ _ _ _ h
      refine ⟨rs, ?_, hrest⟩
      simpa only [List.filter, FsEntry.d_name, hd] using hall

/-- What a successful call of `read_file` returns: `rs` lists the results of
`read_file` on the direct children of the entry. -/
theorem read_file_spec {p f : String} {t : FsEntry} {fs fs1 : List FileNode}
    {node : FileNode} (h : read_file p f t fs = .ok (node, fs1)) :
    ∃ sb, t.lstat = some sb ∧ node.statBuf = sb ∧ node.name = entry_path p f ∧
      ∃ rs : List (FileNode × List FileNode),
        List.Forall₂ (fun e r => read_file (entry_path p f) e.d_name e [] = .ok r) t.kids rs ∧
        node.children = rs.map Prod.fst ∧
        node.size = sb.st_size + (rs.map (fun r => r.1.size)).sum ∧
        node.blocks = sb.st_blocks + (rs.map (fun r => r.1.blocks)).sum ∧
        node.num_files = (rs.map (fun r => 1 + r.1.num_files)).sum ∧
        fs1 = fs ++ (rs.map Prod.snd).flatten ++ [node] := by
  obtain ⟨n, st, es⟩ := t
  cases st with
  | none => simp [read_file] at h
  | some sb =>
    refine ⟨sb, rfl, ?_⟩
    simp only [read_file] at h
    by_cases hd : S_ISDIR sb.st_mode = true
    · simp only [hd, if_true] at h
      cases hr : read_dir (entry_path p f) es
          { statBuf := sb, children := [], size := sb.st_size, blocks := sb.st_blocks,
            num_files := 0, name := entry_path p f } fs with
      | error msg => simp [hr] at h
      | ok r =>
        obtain ⟨file1, fsa⟩ := r
        simp only [hr, Except.ok.injEq, Prod.mk.injEq] at h
        obtain ⟨rfl, rfl⟩ := h
        obtain ⟨rs, hall, h1, h2, h3, h4, h5, h6, h7⟩ := read_dir_spec _ _ _ _ _ _ hr
        refine ⟨h1, h2, rs, ?_, ?_, h4, h5, ?_, ?_⟩
        · simpa [FsEntry.kids, FsEntry.is_dir, FsEntry.lstat, FsEntry.readdir, hd] using hall
        · simpa using h3
        · simpa using h6
        · simp [h7]
    · simp only [hd] at h
      simp only [Bool.false_eq_true, if_false, Except.ok.injEq, Prod.mk.injEq] at h
      obtain ⟨rfl, rfl⟩ := h
      refine ⟨rfl, rfl, [], ?_, ?_⟩
      · simp [FsEntry.kids, FsEntry.is_dir, FsEntry.lstat, hd]
      · simp

theorem descendants_of_eq (es : List FsEntry) :
    descendants_of es =
      (es.filter (fun e => not_dot e.d_name)).flatMap (fun k => k :: k.descendants) := by
  induction es with
  | nil => simp [descendants_of]
  | cons e rest ih =>
    by_cases hd : not_dot e.d_name = true
    · simp [descendants_of, hd, ih, List.filter]
    · simp [descendants_of, hd, ih, List.filter]

/-- The descendants of an entry are its direct children, each followed by its
own descendants. -/
theorem descendants_eq_kids (t : FsEntry) :
    t.descendants = t.kids.flatMap (fun k => k :: k.descendants) := by
  obtain ⟨n, st, es⟩ := t
  cases st with
  | none => simp [FsEntry.descendants, FsEntry.kids, FsEntry.is_dir, FsEntry.lstat]
  | some sb =>
    by_cases hd : S_ISDIR sb.st_mode = true
    · simp [FsEntry.descendants, FsEntry.kids, FsEntry.is_dir, FsEntry.lstat,
        FsEntry.readdir, hd, descendants_of_eq]
    · simp [FsEntry.descendants, FsEntry.kids, FsEntry.is_dir, FsEntry.lstat, hd]

theorem kids_subset (t : FsEntry) : ∀ e ∈ t.kids, e ∈ t.readdir := by
  intro e he
  unfold FsEntry.kids at he
  split at he
  · exact (List.mem_filter.mp he).1
  · cases he

/-- Summing a per-child total over the children's results gives the sum of
the own values over all descendants. -/
theorem sum_over_kids {R : FsEntry → (FileNode × List FileNode) → Prop}
    (g : FsEntry → Int) (v : FileNode × List FileNode → Int) :
    ∀ (ks : List FsEntry) (rs : List (FileNode × List FileNode)),
      List.Forall₂ R ks rs →
      (∀ e r, e ∈ ks → R e r → v r = g e + (e.descendants.map g).sum) →
      (rs.map v).sum = ((ks.flatMap (fun k => k :: k.descendants)).map g).sum := by
  intro ks rs h
  induction h with
  | nil => intro _; simp
  | @cons e r ks1 rs1 hr _ ih =>
    intro hv
    have h1 := hv e r (List.mem_cons_self _ _) hr
    have h2 := ih (fun e1 r1 he1 => hv e1 r1 (List.mem_cons_of_mem _ he1))
    simp only [List.map_cons, List.sum_cons, List.flatMap_cons, List.map_append,
      List.sum_append, h1, h2, List.cons_append]
    ring

theorem read_file_totals (t : FsEntry) : Totals t := by
  induction t using FsEntry.induct with
  | h n st es ih =>
    intro p f fs node fs1 h
    obtain ⟨sb, hsb, -, -, rs, hall, -, hsize, hblocks, hnum, -⟩ := read_file_spec h
    have hk := kids_subset (FsEntry.mk n st es)
    simp only [FsEntry.readdir] at hk
    rw [descendants_eq_kids]
    refine ⟨?_, ?_, ?_⟩
    · rw [hsize, ← sum_over_kids FsEntry.st_size (fun r => r.1.size) _ _ hall]
      · simp [FsEntry.st_size, hsb]
      · intro e r he hr
        exact (ih e (hk e he) _ _ _ _ _ hr).1
    · rw [hblocks, ← sum_over_kids FsEntry.st_blocks (fun r => r.1.blocks) _ _ hall]
      · simp [FsEntry.st_blocks, hsb]
      · intro e r he hr
        exact (ih e (hk e he) _ _ _ _ _ hr).2.1
    · have := sum_over_kids (fun _ => (1 : Int)) (fun r => 1 + r.1.num_files) _ _ hall
        (by
          intro e r he hr
          have := (ih e (hk e he) _ _ _ _ _ hr).2.2
          simp [this])
      rw [hnum, this]
      simp

/-! ## The flat collection -/

theorem paths_of_eq (d : String) (es : List FsEntry) :
    paths_of d es =
      (es.filter (fun e => not_dot e.d_name)).flatMap (fun k => k.paths d k.d_name) := by
  induction es with
  | nil => simp [paths_of]
  | cons e rest ih =>
    by_cases hd : not_dot e.d_name = true
    · simp [paths_of, hd, ih, List.filter]
    · simp [paths_of, hd, ih, List.filter]

/-- The paths of a tree are its own path and the paths of the trees of its
direct children. -/
theorem paths_eq_kids (p f : String) (t : FsEntry) :
    t.paths p f =
      entry_path p f :: t.kids.flatMap (fun k => k.paths (entry_path p f) k.d_name) := by
  obtain ⟨n, st, es⟩ := t
  cases st with
  | none => simp [FsEntry.paths, FsEntry.kids, FsEntry.is_dir, FsEntry.lstat]
  | some sb =>
    by_cases hd : S_ISDIR sb.st_mode = true
    · simp [FsEntry.paths, FsEntry.kids, FsEntry.is_dir, FsEntry.lstat,
        FsEntry.readdir, hd, paths_of_eq]
    · simp [FsEntry.paths, FsEntry.kids, FsEntry.is_dir, FsEntry.lstat, hd]

/-- The names of the records appended for the children, against the paths of
the children's trees. -/
theorem names_over_kids {R : FsEntry → (FileNode × List FileNode) → Prop} (d : String) :
    ∀ (ks : List FsEntry) (rs : List (FileNode × List FileNode)),
      List.Forall₂ R ks rs →
      (∀ e r, e ∈ ks → R e r →
        (r.2.map FileNode.name).Perm (e.paths d e.d_name) ∧
        (r.2.length : Int) = 1 + r.1.num_files) →
      ((rs.map Prod.snd).flatten.map FileNode.name).Perm
          (ks.flatMap (fun k => k.paths d k.d_name)) ∧
        ((rs.map Prod.snd).flatten.length : Int) = (rs.map (fun r => 1 + r.1.num_files)).sum := by
  intro ks rs h
  induction h with
  | nil => intro _; simp
  | @cons e r ks1 rs1 hr _ ih =>
    intro hv
    have h1 := hv e r (List.mem_cons_self _ _) hr
    have h2 := ih (fun e1 r1 he1 => hv e1 r1 (List.mem_cons_of_mem _ he1))
    constructor
    · simp only [List.map_cons, List.flatten_cons, List.map_append, List.flatMap_cons]
      exact h1.1.append h2.1
    · simp only [List.map_cons, List.flatten_cons, List.length_append, List.sum_cons,
        Nat.cast_add, h1.2, h2.2]

theorem read_file_collected (t : FsEntry) : Collected t := by
  induction t using FsEntry.induct with
  | h n st es ih =>
    intro p f node new h
    obtain ⟨sb, -, -, hname, rs, hall, -, -, -, hnum, hnew⟩ := read_file_spec h
    have hk := kids_subset (FsEntry.mk n st es)
    simp only [FsEntry.readdir] at hk
    have hkids := names_over_kids (entry_path p f) _ _ hall
      (fun e r he hr => ih e (hk e he) _ _ _ _ (by rw [hr]))
    rw [paths_eq_kids, hnew, hnum]
    constructor
    · simp only [List.nil_append, List.map_append, List.map_cons, List.map_nil, hname]
      exact (List.perm_append_comm).trans (List.Perm.cons _ hkids.1)
    · simp only [List.nil_append, List.length_append, List.length_singleton, Nat.cast_add,
        Nat.cast_one, hkids.2]
      ring

/-- A name without `/` is determined by any path text that starts with it. -/
theorem segment_unique : ∀ (a b t1 t2 : List Char), '/' ∉ a → '/' ∉ b →
    PathTail t1 → PathTail t2 → a ++ t1 = b ++ t2 → a = b := by
  intro a
  induction a with
  | nil =>
    intro b t1 t2 _ hb h1 _ h
    cases b with
    | nil => rfl
    | cons c b1 =>
      rcases h1 with rfl | ⟨r, rfl⟩
      · simp at h
      · simp only [List.nil_append, List.cons_append, List.cons.injEq] at h
        exact absurd (h.1 ▸ List.mem_cons_self _ _) hb
  | cons x a1 ih =>
    intro b t1 t2 ha hb h1 h2 h
    cases b with
    | nil =>
      rcases h2 with rfl | ⟨r, rfl⟩
      · simp at h
      · simp only [List.nil_append, List.cons_append, List.cons.injEq] at h
        exact absurd (h.1 ▸ List.mem_cons_self _ _) ha
    | cons y b1 =>
      simp only [List.cons_append, List.cons.injEq] at h
      have ha1 : '/' ∉ a1 := fun hm => ha (List.mem_cons_of_mem _ hm)
      have hb1 : '/' ∉ b1 := fun hm => hb (List.mem_cons_of_mem _ hm)
      rw [h.1, ih b1 t1 t2 ha1 hb1 h1 h2 h.2]

theorem valid_name_spec {s : String} (h : valid_name s = true) :
    s ≠ "" ∧ '/' ∉ s.data := by
  simp only [valid_name, Bool.and_eq_true, bne_iff_ne, ne_eq, Bool.not_eq_true',
    List.contains_eq_any_beq, List.any_eq_false, beq_iff_eq] at h
  exact ⟨h.1, fun hm => h.2 _ hm rfl⟩

theorem entry_path_data {d n : String} (h : n ≠ "") :
    (entry_path d n).data = d.data ++ '/' :: n.data := by
  simp [entry_path, h]

/-- The paths below a directory `d` whose listing is well named: pairwise
distinct, and each one continues `d`, `/` and the name of a listed entry. -/
theorem paths_of_distinct (d : String) :
    ∀ es : List FsEntry, (∀ e ∈ es, DistinctPaths e) → well_named_all es = true →
      ((es.filter (fun e => not_dot e.d_name)).map FsEntry.d_name).Nodup →
      (paths_of d es).Nodup ∧
      ∀ s ∈ paths_of d es, ∃ e ∈ es, not_dot e.d_name = true ∧ '/' ∉ e.d_name.data ∧
        ∃ tl, s.data = d.data ++ '/' :: (e.d_name.data ++ tl) ∧ PathTail tl := by
  intro es
  induction es with
  | nil => intro _ _ _; simp [paths_of]
  | cons e rest ih =>
    intro hall hw hn
    have hrest : ∀ e ∈ rest, DistinctPaths e := fun e he => hall e (List.mem_cons_of_mem _ he)
    by_cases hd : not_dot e.d_name = true
    · simp only [well_named_all, hd, if_true, Bool.and_eq_true] at hw
      obtain ⟨⟨hv, hwe⟩, hwr⟩ := hw
      simp only [List.filter, hd, List.map_cons, List.nodup_cons] at hn
      obtain ⟨hnot, hn⟩ := hn
      obtain ⟨hne, hslash⟩ := valid_name_spec hv
      obtain ⟨ih1, ih2⟩ := ih hrest hwr hn
      obtain ⟨he1, he2⟩ := hall e (List.mem_cons_self _ _) d e.d_name hwe
      have hform : ∀ s ∈ e.paths d e.d_name,
          ∃ tl, s.data = d.data ++ '/' :: (e.d_name.data ++ tl) ∧ PathTail tl := by
        intro s hs
        obtain ⟨tl, htl, hpt⟩ := he2 s hs
        refine ⟨tl, ?_, hpt⟩
        rw [htl, entry_path_data hne]
        simp
      simp only [paths_of, hd, if_true]
      refine ⟨List.nodup_append.mpr ⟨he1, ih1, ?_⟩, ?_⟩
      · intro s hs1 hs2
        obtain ⟨tl1, h1, hp1⟩ := hform s hs1
        obtain ⟨e2, he2mem, hd2, hslash2, tl2, h2, hp2⟩ := ih2 s hs2
        rw [h1] at h2
        have h3 := List.append_cancel_left h2
        simp only [List.cons.injEq, true_and] at h3
        have h4 := segment_unique _ _ _ _ hslash hslash2 hp1 hp2 h3
        apply hnot
        rw [String.ext h4]
        exact List.mem_map.mpr ⟨e2, List.mem_filter.mpr ⟨he2mem, by simpa using hd2⟩, rfl⟩
      · intro s hs
        rcases List.mem_append.mp hs with hs | hs
        · obtain ⟨tl, htl, hpt⟩ := hform s hs
          exact ⟨e, List.mem_cons_self _ _, hd, hslash, tl, htl, hpt⟩
        · obtain ⟨e2, he2mem, rest2⟩ := ih2 s hs
          exact ⟨e2, List.mem_cons_of_mem _ he2mem, rest2⟩
    · simp only [well_named_all, hd] at hw
      simp only [List.filter, hd] at hn
      obtain ⟨ih1, ih2⟩ := ih hrest hw hn
      simp only [paths_of, hd]
      refine ⟨ih1, ?_⟩
      intro s hs
      obtain ⟨e2, he2mem, rest2⟩ := ih2 s hs
      exact ⟨e2, List.mem_cons_of_mem _ he2mem, rest2⟩

theorem paths_distinct (t : FsEntry) : DistinctPaths t := by
  induction t using FsEntry.induct with
  | h n st es ih =>
    intro p f hw
    cases st with
    | none => simp [FsEntry.paths, PathTail]
    | some sb =>
      by_cases hd : S_ISDIR sb.st_mode = true
      · simp only [FsEntry.well_named, hd, if_true, Bool.and_eq_true, decide_eq_true_eq] at hw
        obtain ⟨h1, h2⟩ := paths_of_distinct (entry_path p f) es ih hw.1 hw.2
        simp only [FsEntry.paths, hd, if_true, List.nodup_cons, List.mem_cons]
        refine ⟨⟨?_, h1⟩, ?_⟩
        · intro hmem
          obtain ⟨e, -, -, -, tl, htl, -⟩ := h2 _ hmem
          have := congrArg List.length htl
          simp at this
        · intro s hs
          rcases hs with rfl | hs
          · exact ⟨[], by simp, Or.inl rfl⟩
          · obtain ⟨e, -, -, -, tl, htl, -⟩ := h2 _ hs
            exact ⟨'/' :: (e.d_name.data ++ tl), htl, Or.inr ⟨_, rfl⟩⟩
      · simp only [FsEntry.paths, hd, Bool.false_eq_true, if_false, List.nodup_cons,
          List.not_mem_nil, not_false_eq_true, List.nodup_nil, and_self, List.mem_singleton,
          true_and]
        intro s hs
        exact ⟨[], by simp [hs], Or.inl rfl⟩

/-! ## Aggregation -/

/-- C2: when `read_file` succeeds on a directory `t`, the record it builds
has as `children` the records built for the direct children of `t`, and its
`num_files` is the sum over those records `c` of `1 + c.num_files`. -/
theorem dir_num_files_sum_children (p f : String) (t : FsEntry) (fs fs1 : List FileNode)
    (node : FileNode) (h : read_file p f t fs = .ok (node, fs1)) (hd : t.is_dir = true) :
    t.kids = t.readdir.filter (fun e => not_dot e.d_name) ∧
    List.Forall₂
      (fun e c => ∃ new, ∀ fs2, read_file (entry_path p f) e.d_name e fs2 = .ok (c, fs2 ++ new))
      t.kids node.children ∧
    node.num_files = (node.children.map (fun c => 1 + c.num_files)).sum := by
  obtain ⟨sb, -, -, -, rs, hall, hch, -, -, hnum, -⟩ := read_file_spec h
  refine ⟨by simp [FsEntry.kids, hd], ?_, ?_⟩
  · rw [hch, List.forall₂_map_right_iff]
    refine hall.imp ?_
    intro e r hr
    obtain ⟨new, h0, -, hf⟩ := read_file_from_nil hr
    exact ⟨new, hf⟩
  · rw [hnum, hch, List.map_map]
    rfl

theorem dir_num_files_sum_children_witness :
    read_file "root" "" ex_tree [] = .ok (ex_root_node, ex_files) ∧ ex_tree.is_dir = true ∧
    ex_root_node.num_files = (ex_root_node.children.map (fun c => 1 + c.num_files)).sum ∧
    ex_root_node.num_files = 2 :=
  ⟨rfl, rfl,
    (dir_num_files_sum_children "root" "" ex_tree [] ex_files ex_root_node rfl rfl).2.2, rfl⟩

/-- C4: the `num_files` of every record `read_file` builds is the number of
entries strictly below its entry in the file tree, at any depth; the record
of an entry that is not a directory has `num_files = 0`, and its `size` and
`blocks` are the entry's own `st_size` and `st_blocks`. -/
theorem num_files_counts_descendants (p f : String) (t : FsEntry) (fs fs1 : List FileNode)
    (node : FileNode) (h : read_file p f t fs = .ok (node, fs1)) :
    node.num_files = (t.descendants.length : Int) ∧
    (t.is_dir = false →
      node.num_files = 0 ∧ node.size = t.st_size ∧ node.blocks = t.st_blocks) := by
  obtain ⟨hs, hb, hn⟩ := read_file_totals t p f fs node fs1 h
  refine ⟨hn, fun hd => ?_⟩
  have hk : t.kids = [] := by simp [FsEntry.kids, hd]
  have hdesc : t.descendants = [] := by rw [descendants_eq_kids, hk]; rfl
  rw [hdesc] at hs hb hn
  simp only [List.map_nil, List.sum_nil, add_zero, List.length_nil, Nat.cast_zero] at hs hb hn
  exact ⟨hn, hs, hb⟩

theorem num_files_counts_descendants_witness :
    read_file "root" "" ex_tree [] = .ok (ex_root_node, ex_files) ∧
    ex_root_node.num_files = (ex_tree.descendants.length : Int) ∧
    ex_tree.descendants.length = 2 ∧
    read_file "root" "a.txt" ex_file [] = .ok (ex_file_node, [ex_file_node]) ∧
    ex_file.is_dir = false ∧
    ex_file_node.num_files = 0 ∧ ex_file_node.size = ex_file.st_size ∧
    ex_file_node.blocks = ex_file.st_blocks :=
  ⟨rfl, (num_files_counts_descendants "root" "" ex_tree [] ex_files ex_root_node rfl).1, rfl,
    rfl, rfl,
    (num_files_counts_descendants "root" "a.txt" ex_file [] [ex_file_node] ex_file_node rfl).2
      rfl⟩

/-- C5: after a successful `read_file(root, "")` on an empty `files`, the
names of the records in `files` are a rearrangement of the paths of the
entries of the tree (root included, directories or not); in a well named tree
they are pairwise distinct; and the number of records is the number of
entries, `1 +` the number of descendants of the root, which is `1 +` the
`num_files` of the root record. -/
theorem files_one_record_per_entry (root : String) (t : FsEntry) (node : FileNode)
    (files : List FileNode) (h : read_file root "" t [] = .ok (node, files)) :
    (files.map FileNode.name).Perm (t.paths root "") ∧
    (t.well_named = true → (files.map FileNode.name).Nodup) ∧
    files.length = 1 + t.descendants.length ∧
    (files.length : Int) = 1 + node.num_files := by
  obtain ⟨hperm, hlen⟩ := read_file_collected t root "" node files h
  have hnum := (read_file_totals t root "" [] node files h).2.2
  refine ⟨hperm, fun hw => ?_, ?_, hlen⟩
  · exact hperm.nodup_iff.mpr (paths_distinct t root "" hw).1
  · rw [hnum] at hlen
    exact_mod_cast hlen

theorem files_one_record_per_entry_witness :
    read_file "root" "" ex_tree [] = .ok (ex_root_node, ex_files) ∧
    ex_tree.well_named = true ∧
    ex_tree.paths "root" "" = ["root", "root/a.txt", "root/sub"] ∧
    (ex_files.map FileNode.name).Perm (ex_tree.paths "root" "") ∧
    (ex_files.map FileNode.name).Nodup ∧
    ex_files.length = 1 + ex_tree.descendants.length ∧
    (ex_files.length : Int) = 1 + ex_root_node.num_files :=
  have h := files_one_record_per_entry "root" ex_tree ex_root_node ex_files rfl
  ⟨rfl, rfl, rfl, h.1, h.2.1 rfl, h.2.2.1, h.2.2.2⟩

/-! ## Failure of `lstat` -/

theorem read_dir_returns_iff (p : String) :
    ∀ es, (∀ e ∈ es, ReturnsIffStat e) → ∀ file fs,
      (∃ r, read_dir p es file fs = .ok r) ↔ lstat_ok_all es = true := by
  intro es
  induction es with
  | nil => intro _ file fs; simp [read_dir, lstat_ok_all]
  | cons e rest ih =>
    intro hall file fs
    obtain ⟨n, st, es1⟩ := e
    have hrest : ∀ e ∈ rest, ReturnsIffStat e := fun e he => hall e (List.mem_cons_of_mem _ he)
    have he := hall _ (List.mem_cons_self _ _) p n fs
    by_cases hd : not_dot n = true
    · simp only [read_dir, lstat_ok_all, FsEntry.d_name, hd, if_true, Bool.and_eq_true]
      cases hr : read_file p n (.mk n st es1) fs with
      | error msg =>
        simp only [hr, exists_const] at he
        have hno : ¬ (FsEntry.mk n st es1).lstat_ok = true := fun hk => by
          have := he.mpr hk
          simp at this
        simp [hno]
      | ok r =>
        obtain ⟨child, fsa⟩ := r
        have hk : (FsEntry.mk n st es1).lstat_ok = true := he.mp ⟨_, hr⟩
        simp only [hk, true_and]
        exact ih hrest _ _
    · simp only [read_dir, lstat_ok_all, FsEntry.d_name, hd]
      exact ih hrest _ _

theorem read_file_returns_iff (t : FsEntry) : ReturnsIffStat t := by
  induction t using FsEntry.induct with
  | h n st es ih =>
    intro p f fs
    cases st with
    | none => simp [read_file, FsEntry.lstat_ok]
    | some sb =>
      by_cases hd : S_ISDIR sb.st_mode = true
      · have hdir := read_dir_returns_iff (entry_path p f) es ih
          { statBuf := sb, children := [], size := sb.st_size, blocks := sb.st_blocks,
            num_files := 0, name := entry_path p f } fs
        simp only [read_file, FsEntry.lstat_ok, hd, if_true]
        rw [← hdir]
        cases hr : read_dir (entry_path p f) es
            { statBuf := sb, children := [], size := sb.st_size, blocks := sb.st_blocks,
              num_files := 0, name := entry_path p f } fs with
        | error msg => simp
        | ok r => simp
      · simp [read_file, FsEntry.lstat_ok, hd]

/-! ## Sorting and printing -/

/-- The sort leaves the records in non-increasing order of `size`. -/
theorem std_sort_sorted (files : List FileNode) :
    List.Pairwise (fun a b => a.size ≥ b.size) (std_sort files) := by
  have htotal : IsTotal FileNode (fun a b => comp b a = false) :=
    ⟨fun a b => by
      simp only [comp, gt_iff_lt, decide_eq_false_iff_not, not_lt]
      exact le_total _ _⟩
  have htrans : IsTrans FileNode (fun a b => comp b a = false) :=
    ⟨fun a b c hab hbc => by
      simp only [comp, gt_iff_lt, decide_eq_false_iff_not, not_lt] at hab hbc ⊢
      exact le_trans hbc hab⟩
  have hs := @List.sorted_insertionSort FileNode (fun a b => comp b a = false) _ htotal htrans
    files
  refine List.Pairwise.imp ?_ hs
  intro a b hab
  simpa only [comp, gt_iff_lt, decide_eq_false_iff_not, not_lt, ge_iff_le] using hab

/-- C7: with `-s` set the collection handed to the printing function is in
non-increasing order of the `size` field (for all pairs of positions, hence
for every adjacent pair); with `-s` not set it is the traversal order
collection itself; and what a successful run prints is the printing function
applied to that collection. -/
theorem sort_step_order (fl : Flags) (files : List FileNode) :
    (fl.sort_by_size = true →
      List.Pairwise (fun a b => a.size ≥ b.size) (sort_step fl files) ∧
      List.Chain' (fun a b => a.size ≥ b.size) (sort_step fl files)) ∧
    (fl.sort_by_size = false → sort_step fl files = files) ∧
    (∀ (argv : List String) (fs : String → FsEntry) (node : FileNode),
      (parse_input argv).2 = fl →
      read_file (root_path argv) "" (fs (root_path argv)) [] = .ok (node, files) →
      (main argv fs).stdout = print_step fl (sort_step fl files)) := by
  refine ⟨fun hs => ?_, fun hs => ?_, ?_⟩
  · have := std_sort_sorted files
    simp only [sort_step, hs, if_true]
    exact ⟨this, this.chain'⟩
  · simp [sort_step, hs]
  · intro argv fs node hfl hr
    simp only [main, hr, hfl]

theorem sort_step_order_witness :
    ((parse_input ["du", "-s", "root"]).2.sort_by_size = true ∧
      (sort_step (parse_input ["du", "-s", "root"]).2 ex_files).map FileNode.size
        = [8292, 4096, 100] ∧
      List.Chain' (fun a b => a.size ≥ b.size)
        (sort_step (parse_input ["du", "-s", "root"]).2 ex_files)) ∧
    ((parse_input ["du", "root"]).2.sort_by_size = false ∧
      sort_step (parse_input ["du", "root"]).2 ex_files = ex_files) ∧
    (read_file (root_path ["du", "-s", "root"]) "" ex_tree [] = .ok (ex_root_node, ex_files) ∧
      (main ["du", "-s", "root"] (fun _ => ex_tree)).stdout
        = print_step (parse_input ["du", "-s", "root"]).2
            (sort_step (parse_input ["du", "-s", "root"]).2 ex_files)) :=
  ⟨⟨rfl, rfl, ((sort_step_order (parse_input ["du", "-s", "root"]).2 ex_files).1 rfl).2⟩,
   ⟨rfl, (sort_step_order (parse_input ["du", "root"]).2 ex_files).2.1 rfl⟩,
   ⟨rfl, (sort_step_order (parse_input ["du", "-s", "root"]).2 ex_files).2.2
      ["du", "-s", "root"] (fun _ => ex_tree) ex_root_node rfl rfl⟩⟩

theorem print_files_fold (fl : Flags) :
    ∀ (files : List FileNode) (out : String),
      files.foldl (print_file fl) out
        = out ++ lines_text ((files.filter (shown fl)).map (record_line fl)) := by
  intro files
  induction files with
  | nil => intro out; simp [lines_text]
  | cons f rest ih =>
    intro out
    rw [List.foldl_cons, ih]
    by_cases hs : shown fl f = true
    · have hs1 : (S_ISDIR f.statBuf.st_mode || fl.all) = true := hs
      simp only [print_file, hs1, if_true, List.filter, hs, List.map_cons, lines_text,
        List.foldr_cons, record_line, String.append_assoc]
    · have hs1 : ¬ (S_ISDIR f.statBuf.st_mode || fl.all) = true := hs
      simp only [print_file, hs1, List.filter, hs]
      rfl

/-- C8: for every collection and every flag setting, the text `print_files`
writes is made of the lines of the records that are directories or, when
`-a` is set, of all records, in collection order: one line for each such
record and nothing else. -/
theorem print_files_shows_dirs_or_all (fl : Flags) (files : List FileNode) :
    print_files fl files = lines_text ((files.filter (shown fl)).map (record_line fl)) ∧
    (∀ f, shown fl f = true ↔ (S_ISDIR f.statBuf.st_mode = true ∨ fl.all = true)) ∧
    ((files.filter (shown fl)).map (record_line fl)).length
      = (files.filter (fun f => S_ISDIR f.statBuf.st_mode || fl.all)).length := by
  refine ⟨?_, ?_, ?_⟩
  · unfold print_files
    rw [print_files_fold]
    simp
  · intro f
    simp [shown]
  · simp only [List.length_map]
    rfl

/-! ## A directory holding one file and one empty directory -/

/-- The rounding of `printf` yields a nearest integer to the quotient. -/
theorem round_div_nearest (n d : Nat) (hd : 0 < d) :
    nearest_to (round_div n d) (n : Int) (d : Int) := by
  have hdm := Nat.div_add_mod n d
  have hr := Nat.mod_lt n hd
  generalize hq : n / d = q at hdm
  generalize hrr : n % d = r at hdm hr
  have hn : (n : Int) = (d : Int) * q + r := by exact_mod_cast hdm.symm
  have hr0 : (0 : Int) ≤ r := Int.ofNat_nonneg r
  have hrd : (r : Int) < d := by exact_mod_cast hr
  unfold nearest_to round_div
  simp only [hq, hrr]
  split
  · rename_i h1
    have h1z : 2 * (r : Int) < d := by exact_mod_cast h1
    have : (n : Int) - (q : Int) * d = r := by rw [hn]; ring
    rw [this, abs_of_nonneg hr0]
    omega
  · rename_i h1
    have h1z : ¬ 2 * (r : Int) < d := by exact_mod_cast h1
    have hup : (n : Int) - ((q + 1 : Nat) : Int) * d = -((d : Int) - r) := by
      rw [hn]; push_cast; ring
    have hdown : (n : Int) - (q : Int) * d = r := by rw [hn]; ring
    split
    · rw [hup, abs_neg, abs_of_nonneg (by omega)]
      rename_i h2
      have h2z : (d : Int) < 2 * r := by exact_mod_cast h2
      omega
    · rename_i h2
      have h2z : ¬ (d : Int) < 2 * r := by exact_mod_cast h2
      split
      · rw [hdown, abs_of_nonneg hr0]
        omega
      · rw [hup, abs_neg, abs_of_nonneg (by omega)]
        omega

theorem printf_1f_spec (num den : Int) (hn : 0 ≤ num) (hd : 0 < den) :
    ∃ n : Nat, nearest_to n (num * 10) den ∧
      printf_1f num den = toString (n / 10) ++ "." ++ toString (n % 10) := by
  refine ⟨round_div (num.natAbs * 10) den.natAbs, ?_, ?_⟩
  · have h := round_div_nearest (num.natAbs * 10) den.natAbs (by omega)
    have h1 : ((num.natAbs * 10 : Nat) : Int) = num * 10 := by
      push_cast
      rw [abs_of_nonneg hn]
    have h2 : ((den.natAbs : Nat) : Int) = den := Int.natAbs_of_nonneg hd.le
    rwa [h1, h2] at h
  · have hneg : ¬ num < 0 := not_lt.mpr hn
    simp [printf_1f, hneg]

theorem printf_0f_spec (num den : Int) (hn : 0 ≤ num) (hd : 0 < den) :
    ∃ n : Nat, nearest_to n num den ∧ printf_0f num den = toString n := by
  refine ⟨round_div num.natAbs den.natAbs, ?_, ?_⟩
  · have h := round_div_nearest num.natAbs den.natAbs (by omega)
    have h1 : ((num.natAbs : Nat) : Int) = num := Int.natAbs_of_nonneg hn
    have h2 : ((den.natAbs : Nat) : Int) = den := Int.natAbs_of_nonneg hd.le
    rwa [h1, h2] at h
  · have hneg : ¬ num < 0 := not_lt.mpr hn
    simp [printf_0f, hneg]

/-- The number part `print_files` writes with `-h` for `bytes / unit`: one
decimal place below 10, none from 10 on, rounded to nearest. -/
theorem human_digits (bytes unit : Int) (hn : 0 ≤ bytes) (hd : 0 < unit) (suffix : String) :
    ∃ digits : String,
      (if bytes < 10 * unit then printf_1f bytes unit ++ suffix ++ "\t"
        else printf_0f bytes unit ++ suffix ++ "\t") = digits ++ suffix ++ "\t" ∧
      ((bytes < 10 * unit ∧ ∃ n : Nat, nearest_to n (bytes * 10) unit ∧
          digits = toString (n / 10) ++ "." ++ toString (n % 10)) ∨
       (10 * unit ≤ bytes ∧ ∃ n : Nat, nearest_to n bytes unit ∧ digits = toString n)) := by
  by_cases h : bytes < 10 * unit
  · obtain ⟨n, hn1, hn2⟩ := printf_1f_spec bytes unit hn hd
    exact ⟨printf_1f bytes unit, by simp [h], Or.inl ⟨h, n, hn1, hn2⟩⟩
  · obtain ⟨n, hn1, hn2⟩ := printf_0f_spec bytes unit hn hd
    exact ⟨printf_0f bytes unit, by simp [h], Or.inr ⟨not_lt.mp h, n, hn1, hn2⟩⟩

/-- C11 (as amended): with `-h`, a record whose allocated space is exactly
2097152 bytes (4096 blocks) has the size column text `2.0M` followed by a
tab: the value 2 is below 10 and is printed with one decimal place. -/
theorem human_two_mib (fl : Flags) (f : FileNode) (hh : fl.human_readable = true)
    (hb : f.blocks = 4096) :
    f.blocks * BLOCK_SIZE = 2097152 ∧ size_column fl f = "2.0M" ++ "\t" := by
  refine ⟨by rw [hb]; decide, ?_⟩
  simp only [size_column, hh, if_true, hb]
  decide

theorem human_two_mib_witness :
    flags_h.human_readable = true ∧ ex_two_mib_node.blocks = 4096 ∧
    size_column flags_h ex_two_mib_node = "2.0M" ++ "\t" :=
  ⟨rfl, rfl, (human_two_mib flags_h ex_two_mib_node rfl rfl).2⟩

/-- C11 (as stated) fails: with `-h` the record of 4096 blocks gets the size
column `2.0M`, not `2M`. -/
theorem human_two_mib_counterexample :
    ex_two_mib_node.blocks * BLOCK_SIZE = 2097152 ∧
    size_column flags_h ex_two_mib_node = "2.0M\t" ∧
    size_column flags_h ex_two_mib_node ≠ "2M\t" ∧
    (main ["du", "-h", "big"]
      (fun _ => .mk "" (some { ex_dir_stat with st_blocks := 4096 }) [])).stdout
      = "2.0M\tbig\n" := by
  decide

/-- The human readable size of the exact quotient: the suffix is `G` above
1073741824 bytes, otherwise `M` above 1048576 bytes, otherwise `K`; the number
is `bytes` divided by the unit of the suffix, rounded to nearest, with one
decimal place below 10 and none from 10 on. -/
theorem exact_size_format :
    (∀ (fl : Flags) (f : FileNode), fl.human_readable = true → 0 ≤ f.blocks →
      ∃ (unit : Int) (suffix digits : String),
        size_column fl f = digits ++ suffix ++ "\t" ∧
        ((1073741824 < f.blocks * 512 ∧ unit = 1073741824 ∧ suffix = "G") ∨
         (f.blocks * 512 ≤ 1073741824 ∧ 1048576 < f.blocks * 512 ∧
            unit = 1048576 ∧ suffix = "M") ∨
         (f.blocks * 512 ≤ 1048576 ∧ unit = 1024 ∧ suffix = "K")) ∧
        ((f.blocks * 512 < 10 * unit ∧ ∃ n : Nat, nearest_to n (f.blocks * 512 * 10) unit ∧
            digits = toString (n / 10) ++ "." ++ toString (n % 10)) ∨
         (10 * unit ≤ f.blocks * 512 ∧ ∃ n : Nat, nearest_to n (f.blocks * 512) unit ∧
            digits = toString n))) ∧
    (∀ (fl : Flags) (f : FileNode), fl.human_readable = true →
      size_column fl f = print_human f.blocks) ∧
    (5242880 : Int) = 10240 * 512 ∧ print_human 10240 = "5.0M" ++ "\t" ∧
    (10485760 : Int) = 20480 * 512 ∧ print_human 20480 = "10M" ++ "\t" ∧
    (1048576 : Int) = 2048 * 512 ∧ print_human 2048 = "1024K" ++ "\t" ∧
    (1073741824 : Int) = 2097152 * 512 ∧ print_human 2097152 = "1024M" ++ "\t" := by
  refine ⟨?_, ?_, by decide, by decide, by decide, by decide, by decide, by decide,
    by decide, by decide⟩
  · intro fl f hh hb
    have hbytes : 0 ≤ f.blocks * 512 := by omega
    simp only [size_column, hh, if_true, print_human, BLOCK_SIZE, GB, MB, KB]
    norm_num only
    by_cases hg : 1073741824 < f.blocks * 512
    · obtain ⟨digits, h1, h2⟩ := human_digits (f.blocks * 512) 1073741824 hbytes (by decide) "G"
      refine ⟨1073741824, "G", digits, ?_, Or.inl ⟨hg, rfl, rfl⟩, h2⟩
      simp only [gt_iff_lt, hg, if_true]
      exact h1
    · by_cases hm : 1048576 < f.blocks * 512
      · obtain ⟨digits, h1, h2⟩ := human_digits (f.blocks * 512) 1048576 hbytes (by decide) "M"
        refine ⟨1048576, "M", digits, ?_, Or.inr (Or.inl ⟨not_lt.mp hg, hm, rfl, rfl⟩), h2⟩
        simp only [gt_iff_lt, hg, hm, if_true, if_false]
        exact h1
      · obtain ⟨digits, h1, h2⟩ := human_digits (f.blocks * 512) 1024 hbytes (by decide) "K"
        refine ⟨1024, "K", digits, ?_, Or.inr (Or.inr ⟨not_lt.mp hm, rfl, rfl⟩), h2⟩
        simp only [gt_iff_lt, hg, hm, if_false]
        exact h1
  · intro fl f hh
    simp [size_column, hh]

/-! ## Detailed output -/

theorem print_verbose_fold :
    ∀ (files : List FileNode) (out : String),
      files.foldl print_verbose_file out = out ++ lines_text (files.map verbose_line) := by
  intro files
  induction files with
  | nil => intro out; simp [lines_text]
  | cons f rest ih =>
    intro out
    rw [List.foldl_cons, ih]
    simp only [print_verbose_file, verbose_line, List.map_cons, lines_text, List.foldr_cons,
      String.append_assoc]

/-- The text of `print_verbose`: the header, then one line for each record. -/
theorem print_verbose_lines (files : List FileNode) :
    print_verbose files = verbose_header ++ lines_text (files.map verbose_line) := by
  unfold print_verbose
  exact print_verbose_fold files verbose_header

/-- For the six kinds whose branch of `print_verbose` ends its text with a
comma and a space, the line of a record is its eight fields joined by comma
and space. -/
theorem verbose_line_comma_space (f : FileNode) :
    (S_ISREG f.statBuf.st_mode = true → verbose_line f = comma_space_line f "regular") ∧
    (S_ISDIR f.statBuf.st_mode = true → verbose_line f = comma_space_line f "directory") ∧
    (S_ISCHR f.statBuf.st_mode = true →
      verbose_line f = comma_space_line f "character device") ∧
    (S_ISBLK f.statBuf.st_mode = true → verbose_line f = comma_space_line f "block device") ∧
    (S_ISLNK f.statBuf.st_mode = true → verbose_line f = comma_space_line f "symbolic link") ∧
    (S_ISSOCK f.statBuf.st_mode = true → verbose_line f = comma_space_line f "socket") := by
  simp only [S_ISREG, S_ISDIR, S_ISCHR, S_ISBLK, S_ISLNK, S_ISSOCK, beq_iff_eq]
  refine ⟨?_, ?_, ?_, ?_, ?_, ?_⟩ <;> intro h <;>
    simp only [verbose_line, comma_space_line, type_label, S_ISREG, S_ISDIR, S_ISCHR, S_ISBLK,
      S_ISFIFO, S_ISLNK, S_ISSOCK, h, String.intercalate, String.intercalate.go,
      String.append_assoc, Nat.reduceBEq, Bool.false_eq_true, if_false, if_true,
      beq_self_eq_true] <;>
    rfl

/-- C14 (the code at the failing inputs): for a named pipe `print_verbose`
writes the type text `FIFO, (named pipe) ` with no comma before the next
field, so `num_files` follows the label after a space alone; for a kind it
does not recognise it writes ` ,` and `num_files` follows the comma with no
space.  Neither line is the eight fields joined by comma and space. -/
theorem verbose_line_fifo_unknown :
    S_ISFIFO ex_fifo_node.statBuf.st_mode = true ∧
    verbose_line ex_fifo_node = "root/pipe, 0, 0, FIFO, (named pipe) 0, 12, 22, 32\n" ∧
    verbose_line ex_fifo_node ≠ comma_space_line ex_fifo_node "FIFO, (named pipe)" ∧
    comma_space_line ex_fifo_node "FIFO, (named pipe)"
      = "root/pipe, 0, 0, FIFO, (named pipe), 0, 12, 22, 32\n" ∧
    print_verbose [ex_fifo_node]
      = verbose_header ++ "root/pipe, 0, 0, FIFO, (named pipe) 0, 12, 22, 32\n" ∧
    verbose_line ex_unknown_node = "root/odd, 0, 0,  ,0, 13, 23, 33\n" ∧
    verbose_line ex_unknown_node ≠ comma_space_line ex_unknown_node " " ∧
    comma_space_line ex_unknown_node " " = "root/odd, 0, 0,  , 0, 13, 23, 33\n" := by
  decide

/-- C15: with `-v` set, the standard output of a run whose traversal succeeds
is the fixed header line followed by one line for each record of the
collection handed to the printing function, directories or not, as many lines
as `files` has records; and two runs on the same file system and root path,
both with `-v` and with the same `-s` setting, have the same outcome whatever
their `-a`, `-h`, `-b` and `-n` settings are. -/
theorem verbose_output_fixed :
    (∀ (argv : List String) (fs : String → FsEntry) (node : FileNode) (files : List FileNode),
      (parse_input argv).2.verbose = true →
      read_file (root_path argv) "" (fs (root_path argv)) [] = .ok (node, files) →
      (main argv fs).stdout
          = verbose_header
              ++ lines_text ((sort_step (parse_input argv).2 files).map verbose_line) ∧
        ((sort_step (parse_input argv).2 files).map verbose_line).length = files.length) ∧
    verbose_header
      = "Name, Size (Bytes), Blocks (512B), File Type, Num Children, Last Access, Last Modification, Last Status Change\n" ∧
    (∀ (argv1 argv2 : List String) (fs : String → FsEntry),
      root_path argv1 = root_path argv2 →
      (parse_input argv1).2.verbose = true → (parse_input argv2).2.verbose = true →
      (parse_input argv1).2.sort_by_size = (parse_input argv2).2.sort_by_size →
      main argv1 fs = main argv2 fs) := by
  refine ⟨?_, by decide, ?_⟩
  · intro argv fs node files hv hr
    constructor
    · simp only [main, hr, print_step, hv, if_true, print_verbose_lines]
    · rw [List.length_map]
      unfold sort_step
      split
      · exact (List.perm_insertionSort _ files).length_eq
      · rfl
  · intro argv1 argv2 fs hroot hv1 hv2 hs
    have hsort : ∀ files, sort_step (parse_input argv1).2 files
        = sort_step (parse_input argv2).2 files := by
      intro files
      simp only [sort_step, hs]
    unfold main
    rw [hroot]
    cases read_file (root_path argv2) "" (fs (root_path argv2)) [] with
    | error msg => rfl
    | ok r =>
      obtain ⟨node, files⟩ := r
      simp only [print_step, hv1, hv2, if_true, hsort]

theorem verbose_output_fixed_witness :
    ((parse_input ["du", "-v", "root"]).2.verbose = true ∧
      read_file (root_path ["du", "-v", "root"]) "" ex_tree [] = .ok (ex_root_node, ex_files) ∧
      (main ["du", "-v", "root"] (fun _ => ex_tree)).stdout
        = verbose_header
            ++ lines_text
                ((sort_step (parse_input ["du", "-v", "root"]).2 ex_files).map verbose_line)) ∧
    (root_path ["du", "-v", "root"] = root_path ["du", "-a", "-h", "root", "-b", "-n", "-v"] ∧
      (parse_input ["du", "-a", "-h", "root", "-b", "-n", "-v"]).2.verbose = true ∧
      main ["du", "-v", "root"] (fun _ => ex_tree)
        = main ["du", "-a", "-h", "root", "-b", "-n", "-v"] (fun _ => ex_tree)) :=
  ⟨⟨rfl, rfl,
    (verbose_output_fixed.1 ["du", "-v", "root"] (fun _ => ex_tree) ex_root_node ex_files
      rfl rfl).1⟩,
   ⟨rfl, rfl,
    verbose_output_fixed.2.2 ["du", "-v", "root"] ["du", "-a", "-h", "root", "-b", "-n", "-v"]
      (fun _ => ex_tree) rfl rfl rfl rfl⟩⟩

/-! ## `parse_input` -/

theorem is_flag_iff (a : String) :
    is_flag a = true ↔
      a = "-h" ∨ a = "-s" ∨ a = "-n" ∨ a = "-v" ∨ a = "-b" ∨ a = "-a" := by
  simp [is_flag, or_assoc]

theorem is_flag_dash {a : String} (h : is_flag a = true) : a.get 0 = '-' := by
  rcases (is_flag_iff a).mp h with rfl | rfl | rfl | rfl | rfl | rfl <;> decide

/-- The path component after one step of the loop of `parse_input`. -/
theorem parse_arg_fst (acc : String × Flags) (a : String) :
    (parse_arg acc a).1 = if is_path_arg a = true then a else acc.1 := by
  by_cases hf : is_flag a = true
  · have hp : is_path_arg a = false := by simp [is_path_arg, hf]
    rw [hp]
    rcases (is_flag_iff a).mp hf with rfl | rfl | rfl | rfl | rfl | rfl <;> rfl
  · have hnf := hf
    rw [is_flag_iff] at hnf
    simp only [not_or] at hnf
    obtain ⟨h1, h2, h3, h4, h5, h6⟩ := hnf
    by_cases hd : a.get 0 = '-'
    · simp [parse_arg, is_path_arg, h1, h2, h3, h4, h5, h6, hd]
    · simp [parse_arg, is_path_arg, h1, h2, h3, h4, h5, h6, hd, hf]

theorem foldl_parse_arg_fst :
    ∀ (args : List String) (acc : String × Flags),
      (args.foldl parse_arg acc).1 = ((args.filter is_path_arg).getLast?).getD acc.1 := by
  intro args
  induction args with
  | nil => intro acc; rfl
  | cons a rest ih =>
    intro acc
    rw [List.foldl_cons, ih, parse_arg_fst]
    by_cases hp : is_path_arg a = true
    · simp only [hp, if_true, List.filter_cons_of_pos, List.getLast?_cons]
      rfl
    · simp only [hp, List.filter, Bool.false_eq_true, if_false]

/-- C16 (as amended): the path `parse_input` returns is the last argument
that neither is a recognised flag nor begins with `-`, and the empty string
when there is none; the root path of the traversal is that argument unless it
is the empty string, and `.` when there is no such argument or the last one is
empty. -/
theorem root_path_last_path_arg (argv : List String) :
    (parse_input argv).1 = (last_path_arg argv).getD "" ∧
    root_path argv =
      match last_path_arg argv with
      | some a => if a = "" then "." else a
      | none => "." := by
  have h1 : (parse_input argv).1 = (last_path_arg argv).getD "" := by
    unfold parse_input last_path_arg
    rw [foldl_parse_arg_fst]
  refine ⟨h1, ?_⟩
  unfold root_path
  rw [h1]
  cases last_path_arg argv with
  | none => simp
  | some a => simp

/-- C16 (as stated) fails: when the last argument that neither is a flag nor
begins with `-` is the empty string, the traversal starts at `.`, not at that
argument. -/
theorem root_path_counterexample :
    last_path_arg ["du", "dir", ""] = some "" ∧
    root_path ["du", "dir", ""] = "." ∧
    root_path ["du", "dir", ""] ≠ "" := by
  decide

/-- The flags after one step of the loop of `parse_input`. -/
theorem parse_arg_flags (acc : String × Flags) (a : String) :
    ((parse_arg acc a).2.human_readable = true ↔ acc.2.human_readable = true ∨ a = "-h") ∧
    ((parse_arg acc a).2.sort_by_size = true ↔ acc.2.sort_by_size = true ∨ a = "-s") ∧
    ((parse_arg acc a).2.num_files = true ↔ acc.2.num_files = true ∨ a = "-n") ∧
    ((parse_arg acc a).2.verbose = true ↔ acc.2.verbose = true ∨ a = "-v") ∧
    ((parse_arg acc a).2.bytes = true ↔ acc.2.bytes = true ∨ a = "-b") ∧
    ((parse_arg acc a).2.all = true ↔ acc.2.all = true ∨ a = "-a") := by
  by_cases hf : is_flag a = true
  · rcases (is_flag_iff a).mp hf with rfl | rfl | rfl | rfl | rfl | rfl <;>
      simp [parse_arg]
  · have hnf := hf
    rw [is_flag_iff] at hnf
    simp only [not_or] at hnf
    obtain ⟨h1, h2, h3, h4, h5, h6⟩ := hnf
    by_cases hd : a.get 0 = '-'
    · simp [parse_arg, h1, h2, h3, h4, h5, h6, hd]
    · simp [parse_arg, h1, h2, h3, h4, h5, h6, hd]

theorem foldl_parse_arg_flags :
    ∀ (args : List String) (acc : String × Flags),
      ((args.foldl parse_arg acc).2.human_readable = true ↔
        acc.2.human_readable = true ∨ "-h" ∈ args) ∧
      ((args.foldl parse_arg acc).2.sort_by_size = true ↔
        acc.2.sort_by_size = true ∨ "-s" ∈ args) ∧
      ((args.foldl parse_arg acc).2.num_files = true ↔
        acc.2.num_files = true ∨ "-n" ∈ args) ∧
      ((args.foldl parse_arg acc).2.verbose = true ↔ acc.2.verbose = true ∨ "-v" ∈ args) ∧
      ((args.foldl parse_arg acc).2.bytes = true ↔ acc.2.bytes = true ∨ "-b" ∈ args) ∧
      ((args.foldl parse_arg acc).2.all = true ↔ acc.2.all = true ∨ "-a" ∈ args) := by
  intro args
  induction args with
  | nil => intro acc; simp
  | cons a rest ih =>
    intro acc
    obtain ⟨i1, i2, i3, i4, i5, i6⟩ := ih (parse_arg acc a)
    obtain ⟨p1, p2, p3, p4, p5, p6⟩ := parse_arg_flags acc a
    rw [List.foldl_cons]
    refine ⟨?_, ?_, ?_, ?_, ?_, ?_⟩
    · rw [i1, p1, List.mem_cons, or_assoc, @eq_comm _ "-h" a]
    · rw [i2, p2, List.mem_cons, or_assoc, @eq_comm _ "-s" a]
    · rw [i3, p3, List.mem_cons, or_assoc, @eq_comm _ "-n" a]
    · rw [i4, p4, List.mem_cons, or_assoc, @eq_comm _ "-v" a]
    · rw [i5, p5, List.mem_cons, or_assoc, @eq_comm _ "-b" a]
    · rw [i6, p6, List.mem_cons, or_assoc, @eq_comm _ "-a" a]

/-- Each flag after `parse_input` is set exactly when its token is among the
arguments after the program name. -/
theorem parse_input_flags (argv : List String) :
    ((parse_input argv).2.human_readable = true ↔ "-h" ∈ argv.drop 1) ∧
    ((parse_input argv).2.sort_by_size = true ↔ "-s" ∈ argv.drop 1) ∧
    ((parse_input argv).2.num_files = true ↔ "-n" ∈ argv.drop 1) ∧
    ((parse_input argv).2.verbose = true ↔ "-v" ∈ argv.drop 1) ∧
    ((parse_input argv).2.bytes = true ↔ "-b" ∈ argv.drop 1) ∧
    ((parse_input argv).2.all = true ↔ "-a" ∈ argv.drop 1) := by
  have h := foldl_parse_arg_flags (argv.drop 1) ("", Flags.init)
  simpa [parse_input, Flags.init] using h

theorem flags_eq_of_fields {f g : Flags}
    (h1 : f.human_readable = true ↔ g.human_readable = true)
    (h2 : f.sort_by_size = true ↔ g.sort_by_size = true)
    (h3 : f.num_files = true ↔ g.num_files = true)
    (h4 : f.verbose = true ↔ g.verbose = true)
    (h5 : f.bytes = true ↔ g.bytes = true)
    (h6 : f.all = true ↔ g.all = true) : f = g := by
  cases f
  cases g
  simp only [Flags.mk.injEq]
  exact ⟨Bool.eq_iff_iff.mpr h1, Bool.eq_iff_iff.mpr h2, Bool.eq_iff_iff.mpr h3,
    Bool.eq_iff_iff.mpr h4, Bool.eq_iff_iff.mpr h5, Bool.eq_iff_iff.mpr h6⟩

/-- Argument lists holding the same tokens give the same flags. -/
theorem parse_input_flags_congr (prog1 prog2 : String) (args1 args2 : List String)
    (h : ∀ a, a ∈ args1 ↔ a ∈ args2) :
    (parse_input (prog1 :: args1)).2 = (parse_input (prog2 :: args2)).2 := by
  obtain ⟨a1, a2, a3, a4, a5, a6⟩ := parse_input_flags (prog1 :: args1)
  obtain ⟨b1, b2, b3, b4, b5, b6⟩ := parse_input_flags (prog2 :: args2)
  simp only [List.drop_succ_cons, List.drop_zero] at a1 a2 a3 a4 a5 a6 b1 b2 b3 b4 b5 b6
  exact flags_eq_of_fields (by rw [a1, b1, h]) (by rw [a2, b2, h]) (by rw [a3, b3, h])
    (by rw [a4, b4, h]) (by rw [a5, b5, h]) (by rw [a6, b6, h])

theorem parse_arg_unknown_dash (acc : String × Flags) (a : String)
    (h : is_unknown_dash a = true) : parse_arg acc a = acc := by
  simp only [is_unknown_dash, Bool.and_eq_true, beq_iff_eq, Bool.not_eq_true'] at h
  obtain ⟨hd, hf⟩ := h
  have hnf : ¬ is_flag a = true := by simp [hf]
  rw [is_flag_iff] at hnf
  simp only [not_or] at hnf
  obtain ⟨h1, h2, h3, h4, h5, h6⟩ := hnf
  simp [parse_arg, h1, h2, h3, h4, h5, h6, hd]

theorem foldl_parse_arg_filter :
    ∀ (args : List String) (acc : String × Flags),
      (args.filter (fun a => !is_unknown_dash a)).foldl parse_arg acc
        = args.foldl parse_arg acc := by
  intro args
  induction args with
  | nil => intro acc; rfl
  | cons a rest ih =>
    intro acc
    by_cases hu : is_unknown_dash a = true
    · simp only [List.filter, hu, Bool.not_true, List.foldl_cons, parse_arg_unknown_dash acc a hu]
      exact ih acc
    · simp only [Bool.not_eq_true] at hu
      simp only [List.filter, hu, Bool.not_false, List.foldl_cons]
      exact ih _

/-- C17: after `parse_input` each of the six flags is set exactly when its
token (`-h`, `-s`, `-n`, `-v`, `-b`, `-a`) is among the arguments; so two
argument lists holding the same tokens, one a rearrangement of the other or
one repeating a token of the other, give the same flags; and dropping the
tokens that begin with `-` without being a flag changes neither the flags nor
the returned path. -/
theorem flags_iff_token_present :
    (∀ argv : List String,
      ((parse_input argv).2.human_readable = true ↔ "-h" ∈ argv.drop 1) ∧
      ((parse_input argv).2.sort_by_size = true ↔ "-s" ∈ argv.drop 1) ∧
      ((parse_input argv).2.num_files = true ↔ "-n" ∈ argv.drop 1) ∧
      ((parse_input argv).2.verbose = true ↔ "-v" ∈ argv.drop 1) ∧
      ((parse_input argv).2.bytes = true ↔ "-b" ∈ argv.drop 1) ∧
      ((parse_input argv).2.all = true ↔ "-a" ∈ argv.drop 1)) ∧
    (∀ (prog : String) (args1 args2 : List String), args1.Perm args2 →
      (parse_input (prog :: args1)).2 = (parse_input (prog :: args2)).2) ∧
    (∀ (prog a : String) (args1 args2 : List String), a ∈ args1 ++ args2 →
      (parse_input (prog :: (args1 ++ a :: args2))).2
        = (parse_input (prog :: (args1 ++ args2))).2) ∧
    (∀ (prog : String) (args : List String),
      parse_input (prog :: args.filter (fun a => !is_unknown_dash a))
        = parse_input (prog :: args)) ∧
    (∀ a : String, is_unknown_dash a = true ↔ (a.get 0 = '-' ∧ is_flag a = false)) := by
  refine ⟨parse_input_flags, ?_, ?_, ?_, ?_⟩
  · intro prog args1 args2 hp
    exact parse_input_flags_congr prog prog args1 args2 (fun a => hp.mem_iff)
  · intro prog a args1 args2 ha
    apply parse_input_flags_congr
    intro b
    simp only [List.mem_append, List.mem_cons]
    constructor
    · rintro (h | rfl | h)
      · exact Or.inl h
      · exact List.mem_append.mp ha
      · exact Or.inr h
    · rintro (h | h)
      · exact Or.inl h
      · exact Or.inr (Or.inr h)
  · intro prog args
    simp only [parse_input, List.drop_succ_cons, List.drop_zero]
    exact foldl_parse_arg_filter args _
  · intro a
    simp [is_unknown_dash]

theorem flags_iff_token_present_witness :
    List.Perm ["-h", "dir", "-a", "-x"] ["-x", "-a", "dir", "-h"] ∧
    (parse_input ["du", "-h", "dir", "-a", "-x"]).2
      = (parse_input ["du", "-x", "-a", "dir", "-h"]).2 ∧
    "-h" ∈ ["-h", "dir"] ++ ["-a"] ∧
    (parse_input ("du" :: (["-h", "dir"] ++ "-h" :: ["-a"]))).2
      = (parse_input ("du" :: (["-h", "dir"] ++ ["-a"]))).2 ∧
    parse_input ["du", "-h", "dir", "-a"] = parse_input ["du", "-h", "dir", "-a", "-x"] ∧
    (parse_input ["du", "-h", "dir", "-a", "-x"]).2
      = { Flags.init with human_readable := true, all := true } :=
  ⟨by decide,
   flags_iff_token_present.2.1 "du" ["-h", "dir", "-a", "-x"] ["-x", "-a", "dir", "-h"]
     (by decide),
   by decide,
   flags_iff_token_present.2.2.1 "du" "-h" ["-h", "dir"] ["-a"] (by decide),
   flags_iff_token_present.2.2.2.1 "du" ["-h", "dir", "-a", "-x"],
   by decide⟩

/-! ## Order of the flat collection -/

theorem post_paths_of_eq (d : String) (es : List FsEntry) :
    post_paths_of d es =
      (es.filter (fun e => not_dot e.d_name)).flatMap (fun k => k.post_paths d k.d_name) := by
  induction es with
  | nil => simp [post_paths_of]
  | cons e rest ih =>
    by_cases hd : not_dot e.d_name = true
    · simp [post_paths_of, hd, ih, List.filter]
    · simp [post_paths_of, hd, ih, List.filter]

/-- The post-order paths of a tree are those of the trees of its direct
children, then its own path. -/
theorem post_paths_eq_kids (p f : String) (t : FsEntry) :
    t.post_paths p f =
      t.kids.flatMap (fun k => k.post_paths (entry_path p f) k.d_name) ++ [entry_path p f] := by
  obtain ⟨n, st, es⟩ := t
  cases st with
  | none => simp [FsEntry.post_paths, FsEntry.kids, FsEntry.is_dir, FsEntry.lstat]
  | some sb =>
    by_cases hd : S_ISDIR sb.st_mode = true
    · simp [FsEntry.post_paths, FsEntry.kids, FsEntry.is_dir, FsEntry.lstat,
        FsEntry.readdir, hd, post_paths_of_eq]
    · simp [FsEntry.post_paths, FsEntry.kids, FsEntry.is_dir, FsEntry.lstat, hd]

theorem post_names_over_kids {R : FsEntry → (FileNode × List FileNode) → Prop} (d : String) :
    ∀ (ks : List FsEntry) (rs : List (FileNode × List FileNode)),
      List.Forall₂ R ks rs →
      (∀ e r, e ∈ ks → R e r → r.2.map FileNode.name = e.post_paths d e.d_name) →
      (rs.map Prod.snd).flatten.map FileNode.name
        = ks.flatMap (fun k => k.post_paths d k.d_name) := by
  intro ks rs h
  induction h with
  | nil => intro _; simp
  | @cons e r ks1 rs1 hr _ ih =>
    intro hv
    have h1 := hv e r (List.mem_cons_self _ _) hr
    have h2 := ih (fun e1 r1 he1 => hv e1 r1 (List.mem_cons_of_mem _ he1))
    simp only [List.map_cons, List.flatten_cons, List.map_append, List.flatMap_cons, h1, h2]

theorem read_file_post_order (t : FsEntry) : PostOrder t := by
  induction t using FsEntry.induct with
  | h n st es ih =>
    intro p f node new h
    obtain ⟨sb, -, -, hname, rs, hall, -, -, -, -, hnew⟩ := read_file_spec h
    have hk := kids_subset (FsEntry.mk n st es)
    simp only [FsEntry.readdir] at hk
    have hkids := post_names_over_kids (entry_path p f) _ _ hall
      (fun e r he hr => ih e (hk e he) _ _ _ _ (by rw [hr]))
    rw [post_paths_eq_kids, hnew]
    simp only [List.nil_append, List.map_append, List.map_cons, List.map_nil, hname, hkids]

/-- C19: the records a successful call of `read_file` appends to `files` are
named, in order, by the post-order paths of the tree: for each direct child in
listing order the records of the child's tree, as one contiguous block that
ends with the child's own record, and last the record of the entry itself; so
the record of a directory comes after the records of all entries below it,
which are as many as its descendants.  The name of a child's record is the
name of its parent's record followed by `/` and the entry name. -/
theorem files_post_order (p f : String) (t : FsEntry) (fs fs1 : List FileNode)
    (node : FileNode) (h : read_file p f t fs = .ok (node, fs1)) :
    t.post_paths p f
      = t.kids.flatMap (fun k => k.post_paths (entry_path p f) k.d_name)
          ++ [entry_path p f] ∧
    ∃ new : List FileNode,
      fs1 = fs ++ new ∧ new.map FileNode.name = t.post_paths p f ∧
      new.getLast? = some node ∧ new.length = t.descendants.length + 1 ∧
      ∃ rs : List (FileNode × List FileNode),
        new = (rs.map Prod.snd).flatten ++ [node] ∧
        List.Forall₂
          (fun e r =>
            read_file node.name e.d_name e [] = .ok r ∧
            r.2.getLast? = some r.1 ∧
            r.2.map FileNode.name = e.post_paths node.name e.d_name ∧
            (e.d_name ≠ "" → r.1.name = node.name ++ "/" ++ e.d_name))
          t.kids rs := by
  refine ⟨post_paths_eq_kids p f t, ?_⟩
  obtain ⟨new, hnil, hfs1, -⟩ := read_file_from_nil h
  obtain ⟨sb, -, -, hname, rs, hall, -, -, -, -, hnew⟩ := read_file_spec hnil
  have hlen := (read_file_collected t p f node new hnil).2
  have hnum := (read_file_totals t p f [] node new hnil).2.2
  refine ⟨new, hfs1, read_file_post_order t p f node new hnil, ?_, ?_, rs, ?_, ?_⟩
  · rw [hnew]
    simp
  · rw [hnum] at hlen
    have : (new.length : Int) = ((t.descendants.length + 1 : Nat) : Int) := by
      rw [hlen]; push_cast; ring
    exact_mod_cast this
  · simpa using hnew
  · rw [hname]
    refine hall.imp ?_
    intro e r hr
    obtain ⟨sb1, -, -, hname1, rs1, -, -, -, -, -, hnew1⟩ := read_file_spec hr
    refine ⟨hr, ?_, read_file_post_order e _ _ _ _ (by rw [hr]), ?_⟩
    · rw [hnew1]
      simp
    · intro hne
      rw [hname1]
      simp [entry_path, hne]

theorem files_post_order_witness :
    read_file "root" "" ex_tree [] = .ok (ex_root_node, ex_files) ∧
    ex_tree.post_paths "root" "" = ["root/a.txt", "root/sub", "root"] ∧
    ∃ new : List FileNode,
      ex_files = [] ++ new ∧ new.map FileNode.name = ex_tree.post_paths "root" "" ∧
      new.getLast? = some ex_root_node ∧ new.length = ex_tree.descendants.length + 1 ∧
      ∃ rs : List (FileNode × List FileNode),
        new = (rs.map Prod.snd).flatten ++ [ex_root_node] ∧
        List.Forall₂
          (fun e r =>
            read_file ex_root_node.name e.d_name e [] = .ok r ∧
            r.2.getLast? = some r.1 ∧
            r.2.map FileNode.name = e.post_paths ex_root_node.name e.d_name ∧
            (e.d_name ≠ "" → r.1.name = ex_root_node.name ++ "/" ++ e.d_name))
          ex_tree.kids rs :=
  ⟨rfl, rfl, (files_post_order "root" "" ex_tree [] ex_files ex_root_node rfl).2⟩

/-- The sort rearranges the collection: no record is added, dropped or
changed. -/
theorem std_sort_perm (files : List FileNode) : (std_sort files).Perm files :=
  List.perm_insertionSort _ files

/-- The text of the printing step is made of the lines of `output_lines`. -/
theorem print_step_lines (fl : Flags) (files : List FileNode) :
    print_step fl files = lines_text (output_lines fl files) := by
  unfold print_step output_lines
  split
  · rw [print_verbose_lines]
    rfl
  · unfold print_files
    rw [print_files_fold]
    simp

/-- C20: sorting with `-s` only reorders.  The collection handed to the
printing function is a rearrangement of the traversal order collection (the
same records, each as often); the printed text is made of the lines of that
collection; and the lines printed with `-s` are a rearrangement of the lines
printed without it, in compact and in detailed mode alike. -/
theorem sort_only_reorders (fl : Flags) (files : List FileNode) :
    (sort_step { fl with sort_by_size := true } files).Perm files ∧
    sort_step { fl with sort_by_size := false } files = files ∧
    print_step { fl with sort_by_size := true }
        (sort_step { fl with sort_by_size := true } files)
      = lines_text (output_lines { fl with sort_by_size := true }
          (sort_step { fl with sort_by_size := true } files)) ∧
    print_step { fl with sort_by_size := false }
        (sort_step { fl with sort_by_size := false } files)
      = lines_text (output_lines { fl with sort_by_size := false }
          (sort_step { fl with sort_by_size := false } files)) ∧
    (output_lines { fl with sort_by_size := true }
        (sort_step { fl with sort_by_size := true } files)).Perm
      (output_lines { fl with sort_by_size := false }
        (sort_step { fl with sort_by_size := false } files)) := by
  have hp : (sort_step { fl with sort_by_size := true } files).Perm files := by
    simp only [sort_step, if_true]
    exact std_sort_perm files
  have hn : sort_step { fl with sort_by_size := false } files = files := by
    simp [sort_step]
  refine ⟨hp, hn, print_step_lines _ _, print_step_lines _ _, ?_⟩
  rw [hn]
  unfold output_lines
  by_cases hv : fl.verbose = true
  · simp only [hv, if_true]
    exact List.Perm.cons _ (hp.map _)
  · simp only [hv]
    exact (hp.filter _).map _


/-! ## The program on the 64-bit machine: traversal -/

theorem wrap_long_of_in_long {x : Int} (h : in_long x = true) : wrap_long x = x := by
  simp only [in_long, Bool.and_eq_true, decide_eq_true_eq] at h
  unfold wrap_long
  omega

theorem wrap_long_add_left (a b : Int) : wrap_long (wrap_long a + b) = wrap_long (a + b) := by
  unfold wrap_long
  omega

theorem wrap_long_add_right (a b : Int) : wrap_long (a + wrap_long b) = wrap_long (a + b) := by
  unfold wrap_long
  omega

theorem wrap_long_idem (a : Int) : wrap_long (wrap_long a) = wrap_long a := by
  unfold wrap_long
  omega

theorem machine_read_dir_frame (opens : String → Bool) (p : String) :
    ∀ es, (∀ e ∈ es, MachineFrame opens e) → ∀ file fs file1 fs1,
      Machine.read_dir opens p es file fs = .ok (file1, fs1) →
      ∃ new, ∀ fs2, Machine.read_dir opens p es file fs2 = .ok (file1, fs2 ++ new) := by
  intro es
  induction es with
  | nil =>
    intro _ file fs file1 fs1 h
    simp only [Machine.read_dir, Except.ok.injEq, Prod.mk.injEq] at h
    refine ⟨[], fun fs2 => ?_⟩
    simp [Machine.read_dir, h.1]
  | cons e rest ih =>
    intro hall file fs file1 fs1 h
    obtain ⟨n, st, es1⟩ := e
    have hrest : ∀ e ∈ rest, MachineFrame opens e :=
      fun e he => hall e (List.mem_cons_of_mem _ he)
    simp only [Machine.read_dir] at h
    by_cases hd : not_dot n = true
    · simp only [hd, if_true] at h
      cases hr : Machine.read_file opens p n (.mk n st es1) fs with
      | error msg => simp [hr] at h
      | ok r =>
        obtain ⟨child, fsa⟩ := r
        simp only [hr] at h
        obtain ⟨new1, h1⟩ := hall _ (List.mem_cons_self _ _) p n fs child fsa hr
        obtain ⟨new2, h2⟩ := ih hrest _ _ _ _ h
        refine ⟨new1 ++ new2, fun fs2 => ?_⟩
        simp only [Machine.read_dir, hd, if_true, h1 fs2, h2 (fs2 ++ new1), List.append_assoc]
    · simp only [hd] at h
      obtain ⟨new2, h2⟩ := ih hrest _ _ _ _ h
      refine ⟨new2, fun fs2 => ?_⟩
      simp only [Machine.read_dir, hd, h2 fs2]
      rfl

theorem machine_read_file_frame (opens : String → Bool) (t : FsEntry) :
    MachineFrame opens t := by
  induction t using FsEntry.induct with
  | h n st es ih =>
    intro p f fs c fs1 h
    cases st with
    | none => simp [Machine.read_file] at h
    | some sb =>
      simp only [Machine.read_file] at h
      by_cases hd : S_ISDIR sb.st_mode = true
      · simp only [hd, if_true] at h
        by_cases ho : opens (entry_path p f) = true
        · simp only [ho, if_true] at h
          cases hr : Machine.read_dir opens (entry_path p f) es
              { statBuf := sb, children := [], size := sb.st_size, blocks := sb.st_blocks,
                num_files := 0, name := entry_path p f } fs with
          | error msg => simp [hr] at h
          | ok r =>
            obtain ⟨file1, fsa⟩ := r
            simp only [hr, Except.ok.injEq, Prod.mk.injEq] at h
            obtain ⟨new, hn⟩ := machine_read_dir_frame opens _ es ih _ _ _ _ hr
            refine ⟨new ++ [c], fun fs2 => ?_⟩
            simp only [Machine.read_file, hd, ho, if_true, hn fs2, h.1, List.append_assoc]
        · simp [ho] at h
      · simp only [hd] at h
        simp only [Bool.false_eq_true, if_false, Except.ok.injEq, Prod.mk.injEq] at h
        refine ⟨[c], fun fs2 => ?_⟩
        simp only [Machine.read_file, hd, Bool.false_eq_true, if_false, h.1]

theorem machine_read_file_from_nil {opens : String → Bool} {p f : String} {t : FsEntry}
    {fs fs1 : List FileNode} {c : FileNode}
    (h : Machine.read_file opens p f t fs = .ok (c, fs1)) :
    ∃ new, Machine.read_file opens p f t [] = .ok (c, new) ∧ fs1 = fs ++ new ∧
      ∀ fs2, Machine.read_file opens p f t fs2 = .ok (c, fs2 ++ new) := by
  obtain ⟨new, hn⟩ := machine_read_file_frame opens t p f fs c fs1 h
  refine ⟨new, ?_, ?_, hn⟩
  · simpa using hn []
  · have := hn fs
    rw [h] at this
    simpa using this

/-- What the `readdir` loop does on the machine: `rs` lists, for each entry
other than `.` and `..`, the result of `read_file` on it; the totals are the
wrapped sums. -/
theorem machine_read_dir_spec (opens : String → Bool) (p : String) :
    ∀ es file fs file1 fs1, Machine.read_dir opens p es file fs = .ok (file1, fs1) →
      ∃ rs : List (FileNode × List FileNode),
        List.Forall₂ (fun e r => Machine.read_file opens p e.d_name e [] = .ok r)
          (es.filter (fun e => not_dot e.d_name)) rs ∧
        file1.statBuf = file.statBuf ∧ file1.name = file.name ∧
        file1.children = file.children ++ rs.map Prod.fst ∧
        wrap_long file1.size = wrap_long (file.size + (rs.map (fun r => r.1.size)).sum) ∧
        wrap_long file1.blocks
          = wrap_long (file.blocks + (rs.map (fun r => r.1.blocks)).sum) ∧
        wrap_long file1.num_files
          = wrap_long (file.num_files + (rs.map (fun r => 1 + r.1.num_files)).sum) ∧
        (rs ≠ [] → wrap_long file1.size = file1.size ∧ wrap_long file1.blocks = file1.blocks ∧
          wrap_long file1.num_files = file1.num_files) ∧
        (rs = [] → file1 = file) ∧
        fs1 = fs ++ (rs.map Prod.snd).flatten := by
  intro es
  induction es with
  | nil =>
    intro file fs file1 fs1 h
    simp only [Machine.read_dir, Except.ok.injEq, Prod.mk.injEq] at h
    obtain ⟨rfl, rfl⟩ := h
    exact ⟨[], by simp⟩
  | cons e rest ih =>
    intro file fs file1 fs1 h
    obtain ⟨n, st, es1⟩ := e
    simp only [Machine.read_dir] at h
    by_cases hd : not_dot n = true
    · simp only [hd, if_true] at h
      cases hr : Machine.read_file opens p n (.mk n st es1) fs with
      | error msg => simp [hr] at h
      | ok r =>
        obtain ⟨child, fsa⟩ := r
        simp only [hr] at h
        obtain ⟨new, hnil, hfsa, -⟩ := machine_read_file_from_nil hr
        obtain ⟨rs, hall, h1, h2, h3, h4, h5, h6, h7, h8, h9⟩ := ih _ _ _ _ h
        refine ⟨(child, new) :: rs, ?_, ?_, ?_, ?_, ?_, ?_, ?_, ?_, ?_, ?_⟩
        · simp only [List.filter, FsEntry.d_name, hd]
          exact List.Forall₂.cons hnil hall
        · simpa using h1
        · simpa using h2
        · simpa using h3
        · rw [h4]
          simp only [List.map_cons, List.sum_cons]
          generalize (rs.map (fun r => r.1.size)).sum = s
          unfold wrap_long
          omega
        · rw [h5]
          simp only [List.map_cons, List.sum_cons]
          generalize (rs.map (fun r => r.1.blocks)).sum = s
          unfold wrap_long
          omega
        · rw [h6]
          simp only [List.map_cons, List.sum_cons]
          generalize (rs.map (fun r => 1 + r.1.num_files)).sum = s
          unfold wrap_long
          omega
        · intro _
          by_cases hrs : rs = []
          · have := h8 hrs
            subst this
            simp only [wrap_long_idem, and_self]
          · exact h7 hrs
        · intro hnil2
          cases hnil2
        · simp [h9, hfsa]
    · simp only [hd] at h
      obtain ⟨rs, hall, hrest⟩ := ih _ _ _ _ h
      refine ⟨rs, ?_, hrest⟩
      simpa only [List.filter, FsEntry.d_name, hd] using hall

/-- What a successful call of `read_file` returns on the machine: `rs` lists
the results of `read_file` on the direct children of the entry. -/
theorem machine_read_file_spec {opens : String → Bool} {p f : String} {t : FsEntry}
    {fs fs1 : List FileNode} {node : FileNode}
    (h : Machine.read_file opens p f t fs = .ok (node, fs1)) :
    ∃ sb, t.lstat = some sb ∧ node.statBuf = sb ∧ node.name = entry_path p f ∧
      ∃ rs : List (FileNode × List FileNode),
        List.Forall₂ (fun e r => Machine.read_file opens (entry_path p f) e.d_name e [] = .ok r)
          t.kids rs ∧
        node.children = rs.map Prod.fst ∧
        wrap_long node.size = wrap_long (sb.st_size + (rs.map (fun r => r.1.size)).sum) ∧
        wrap_long node.blocks = wrap_long (sb.st_blocks + (rs.map (fun r => r.1.blocks)).sum) ∧
        wrap_long node.num_files = wrap_long (rs.map (fun r => 1 + r.1.num_files)).sum ∧
        (rs ≠ [] → wrap_long node.size = node.size ∧ wrap_long node.blocks = node.blocks ∧
          wrap_long node.num_files = node.num_files) ∧
        (rs = [] → node.size = sb.st_size ∧ node.blocks = sb.st_blocks ∧ node.num_files = 0) ∧
        fs1 = fs ++ (rs.map Prod.snd).flatten ++ [node] := by
  obtain ⟨n, st, es⟩ := t
  cases st with
  | none => simp [Machine.read_file] at h
  | some sb =>
    refine ⟨sb, rfl, ?_⟩
    simp only [Machine.read_file] at h
    by_cases hd : S_ISDIR sb.st_mode = true
    · simp only [hd, if_true] at h
      by_cases ho : opens (entry_path p f) = true
      · simp only [ho, if_true] at h
        cases hr : Machine.read_dir opens (entry_path p f) es
            { statBuf := sb, children := [], size := sb.st_size, blocks := sb.st_blocks,
              num_files := 0, name := entry_path p f } fs with
        | error msg => simp [hr] at h
        | ok r =>
          obtain ⟨file1, fsa⟩ := r
          simp only [hr, Except.ok.injEq, Prod.mk.injEq] at h
          obtain ⟨rfl, rfl⟩ := h
          obtain ⟨rs, hall, h1, h2, h3, h4, h5, h6, h7, h8, h9⟩ :=
            machine_read_dir_spec opens _ _ _ _ _ _ hr
          refine ⟨h1, h2, rs, ?_, ?_, h4, h5, ?_, h7, ?_, ?_⟩
          · simpa [FsEntry.kids, FsEntry.is_dir, FsEntry.lstat, FsEntry.readdir, hd] using hall
          · simpa using h3
          · simpa using h6
          · intro hrs
            rw [h8 hrs]
            exact ⟨rfl, rfl, rfl⟩
          · simp [h9]
      · simp [ho] at h
    · simp only [hd] at h
      simp only [Bool.false_eq_true, if_false, Except.ok.injEq, Prod.mk.injEq] at h
      obtain ⟨rfl, rfl⟩ := h
      refine ⟨rfl, rfl, [], ?_, ?_⟩
      · simp [FsEntry.kids, FsEntry.is_dir, FsEntry.lstat, hd]
      · simp

/-- C1 (as amended): when `read_file` succeeds on a directory `t`, the record
it builds has as `children` the records built for the direct children of `t`,
and its `size` is the directory's own `st_size` plus the sum of the `size`
fields of those records, provided that sum is a value of a 64-bit `long`; in
every case `size` agrees with that sum up to wrap-around at 64 bits. -/
theorem machine_dir_size_own_plus_children (opens : String → Bool) (p f : String)
    (t : FsEntry) (fs fs1 : List FileNode) (node : FileNode)
    (h : Machine.read_file opens p f t fs = .ok (node, fs1)) (hd : t.is_dir = true) :
    t.kids = t.readdir.filter (fun e => not_dot e.d_name) ∧
    List.Forall₂
      (fun e c => ∃ new, ∀ fs2,
        Machine.read_file opens (entry_path p f) e.d_name e fs2 = .ok (c, fs2 ++ new))
      t.kids node.children ∧
    t.lstat = some node.statBuf ∧
    (in_long (node.statBuf.st_size + (node.children.map FileNode.size).sum) = true →
      node.size = node.statBuf.st_size + (node.children.map FileNode.size).sum) ∧
    wrap_long node.size
      = wrap_long (node.statBuf.st_size + (node.children.map FileNode.size).sum) := by
  obtain ⟨sb, hsb, hst, -, rs, hall, hch, hsize, -, -, hne, hnil, -⟩ := machine_read_file_spec h
  have hsum : (node.children.map FileNode.size).sum = (rs.map (fun r => r.1.size)).sum := by
    rw [hch, List.map_map]
    rfl
  refine ⟨by simp [FsEntry.kids, hd], ?_, by rw [hst]; exact hsb, ?_, ?_⟩
  · rw [hch, List.forall₂_map_right_iff]
    refine hall.imp ?_
    intro e r hr
    obtain ⟨new, h0, -, hf⟩ := machine_read_file_from_nil hr
    exact ⟨new, hf⟩
  · intro hin
    rw [hst, hsum] at hin ⊢
    by_cases hrs : rs = []
    · rw [(hnil hrs).1, hrs]
      simp
    · rw [← (hne hrs).1, hsize]
      exact wrap_long_of_in_long hin
  · rw [hst, hsum]
    exact hsize

theorem machine_dir_size_own_plus_children_witness :
    Machine.read_file (fun _ => true) "root" "" ex_tree [] = .ok (ex_root_node, ex_files) ∧
    ex_tree.is_dir = true ∧
    in_long (ex_root_node.statBuf.st_size + (ex_root_node.children.map FileNode.size).sum)
      = true ∧
    ex_root_node.size
      = ex_root_node.statBuf.st_size + (ex_root_node.children.map FileNode.size).sum :=
  ⟨rfl, rfl, by decide,
    (machine_dir_size_own_plus_children (fun _ => true) "root" "" ex_tree [] ex_files
      ex_root_node rfl rfl).2.2.2.1 (by decide)⟩

/-- C1 (as stated) fails: on a directory holding two sparse files of `2^62`
bytes each the traversal succeeds, the own size plus the sizes of the two
children is 9223372036854779904, more than a `long` holds, and the `size` of
the directory's record is -9223372036854771712. -/
theorem machine_dir_size_counterexample :
    Machine.read_file (fun _ => true) "root" "" ex_sparse_tree []
      = .ok (ex_sparse_root_node,
          [ex_sparse_node "root/a.img", ex_sparse_node "root/b.img", ex_sparse_root_node]) ∧
    ex_sparse_tree.is_dir = true ∧
    ex_sparse_root_node.statBuf.st_size + (ex_sparse_root_node.children.map FileNode.size).sum
      = 9223372036854779904 ∧
    ex_sparse_root_node.size = -9223372036854771712 ∧
    ex_sparse_root_node.size
      ≠ ex_sparse_root_node.statBuf.st_size
          + (ex_sparse_root_node.children.map FileNode.size).sum :=
  ⟨rfl, rfl, by decide, rfl, by decide⟩

theorem wrap_long_congr_add {a b : Int} (h : wrap_long a = wrap_long b) (x : Int) :
    wrap_long (x + a) = wrap_long (x + b) := by
  rw [← wrap_long_add_right x a, h, wrap_long_add_right]

/-- Summing a per-child total over the children's results agrees, up to
wrap-around, with the sum of the own values over all descendants. -/
theorem machine_sum_over_kids {R : FsEntry → (FileNode × List FileNode) → Prop}
    (g : FsEntry → Int) (v : FileNode × List FileNode → Int) :
    ∀ (ks : List FsEntry) (rs : List (FileNode × List FileNode)),
      List.Forall₂ R ks rs →
      (∀ e r, e ∈ ks → R e r →
        wrap_long (v r) = wrap_long (g e + (e.descendants.map g).sum)) →
      ∀ x : Int, wrap_long (x + (rs.map v).sum)
        = wrap_long (x + ((ks.flatMap (fun k => k :: k.descendants)).map g).sum) := by
  intro ks rs h
  induction h with
  | nil => intro _ x; simp
  | @cons e r ks1 rs1 hr _ ih =>
    intro hv x
    have h1 := hv e r (List.mem_cons_self _ _) hr
    have h2 := ih (fun e1 r1 he1 => hv e1 r1 (List.mem_cons_of_mem _ he1))
    simp only [List.map_cons, List.sum_cons, List.flatMap_cons, List.map_append,
      List.sum_append, List.cons_append]
    have e1 : x + (v r + (rs1.map v).sum) = (x + v r) + (rs1.map v).sum := by ring
    have e2 : x + (g e + ((e.descendants.map g).sum
          + ((ks1.flatMap (fun k => k :: k.descendants)).map g).sum))
        = (x + (g e + (e.descendants.map g).sum))
          + ((ks1.flatMap (fun k => k :: k.descendants)).map g).sum := by ring
    rw [e1, e2, h2 (x + v r)]
    rw [add_comm (x + v r), add_comm (x + (g e + (e.descendants.map g).sum))]
    exact wrap_long_congr_add (wrap_long_congr_add h1 x) _

theorem sum_const_one (l : List FsEntry) :
    (l.map (fun _ => (1 : Int))).sum = (l.length : Int) := by
  induction l with
  | nil => rfl
  | cons a rest ih =>
    rw [List.map_cons, List.sum_cons, ih, List.length_cons]
    push_cast
    ring

theorem machine_read_file_totals (opens : String → Bool) (t : FsEntry) :
    MachineTotals opens t := by
  induction t using FsEntry.induct with
  | h n st es ih =>
    intro p f fs node fs1 h
    obtain ⟨sb, hsb, -, -, rs, hall, -, hsize, hblocks, hnum, -, -, -⟩ :=
      machine_read_file_spec h
    have hk := kids_subset (FsEntry.mk n st es)
    simp only [FsEntry.readdir] at hk
    rw [descendants_eq_kids]
    refine ⟨?_, ?_, ?_⟩
    · rw [hsize, machine_sum_over_kids FsEntry.st_size (fun r => r.1.size) _ _ hall]
      · simp [FsEntry.st_size, hsb]
      · intro e r he hr
        exact (ih e (hk e he) _ _ _ _ _ hr).1
    · rw [hblocks, machine_sum_over_kids FsEntry.st_blocks (fun r => r.1.blocks) _ _ hall]
      · simp [FsEntry.st_blocks, hsb]
      · intro e r he hr
        exact (ih e (hk e he) _ _ _ _ _ hr).2.1
    · have := machine_sum_over_kids (fun _ => (1 : Int)) (fun r => 1 + r.1.num_files) _ _ hall
        (by
          intro e r he hr
          have := (ih e (hk e he) _ _ _ _ _ hr).2.2
          show wrap_long (1 + r.1.num_files)
            = wrap_long (1 + (e.descendants.map (fun _ => (1 : Int))).sum)
          rw [sum_const_one]
          exact wrap_long_congr_add this 1) 0
      simp only [zero_add] at this
      rw [hnum, this, sum_const_one]

/-- C3 (as amended): when `read_file` succeeds on a directory `t`, the `size`
of the record is the directory's own `st_size` plus the sum of the own
`st_size` of every entry below it at any depth, each counted once, provided
that sum is a value of a 64-bit `long`, and `blocks` is the same sum of
`st_blocks` under the same proviso; in every case the two fields agree with
the sums up to wrap-around at 64 bits. -/
theorem machine_dir_totals_over_descendants (opens : String → Bool) (p f : String)
    (t : FsEntry) (fs fs1 : List FileNode) (node : FileNode)
    (h : Machine.read_file opens p f t fs = .ok (node, fs1)) (hd : t.is_dir = true) :
    t.kids = t.readdir.filter (fun e => not_dot e.d_name) ∧
    t.descendants = t.kids.flatMap (fun k => k :: k.descendants) ∧
    (in_long (t.st_size + (t.descendants.map FsEntry.st_size).sum) = true →
      node.size = t.st_size + (t.descendants.map FsEntry.st_size).sum) ∧
    (in_long (t.st_blocks + (t.descendants.map FsEntry.st_blocks).sum) = true →
      node.blocks = t.st_blocks + (t.descendants.map FsEntry.st_blocks).sum) ∧
    wrap_long node.size
      = wrap_long (t.st_size + (t.descendants.map FsEntry.st_size).sum) ∧
    wrap_long node.blocks
      = wrap_long (t.st_blocks + (t.descendants.map FsEntry.st_blocks).sum) := by
  obtain ⟨hs, hb, -⟩ := machine_read_file_totals opens t p f fs node fs1 h
  obtain ⟨sb, hsb, -, -, rs, hall, -, -, -, -, hne, hnil, -⟩ := machine_read_file_spec h
  refine ⟨by simp [FsEntry.kids, hd], descendants_eq_kids t, ?_, ?_, hs, hb⟩
  · intro hin
    by_cases hrs : rs = []
    · have hk : t.kids = [] := by
        subst hrs
        exact List.forall₂_nil_right_iff.mp hall
      rw [(hnil hrs).1, descendants_eq_kids, hk]
      simp [FsEntry.st_size, hsb]
    · rw [← (hne hrs).1, hs]
      exact wrap_long_of_in_long hin
  · intro hin
    by_cases hrs : rs = []
    · have hk : t.kids = [] := by
        subst hrs
        exact List.forall₂_nil_right_iff.mp hall
      rw [(hnil hrs).2.1, descendants_eq_kids, hk]
      simp [FsEntry.st_blocks, hsb]
    · rw [← (hne hrs).2.1, hb]
      exact wrap_long_of_in_long hin

theorem machine_dir_totals_over_descendants_witness :
    Machine.read_file (fun _ => true) "root" "" ex_tree [] = .ok (ex_root_node, ex_files) ∧
    ex_tree.is_dir = true ∧
    ex_tree.descendants = [ex_file, ex_sub] ∧
    in_long (ex_tree.st_size + (ex_tree.descendants.map FsEntry.st_size).sum) = true ∧
    ex_root_node.size = ex_tree.st_size + (ex_tree.descendants.map FsEntry.st_size).sum ∧
    in_long (ex_tree.st_blocks + (ex_tree.descendants.map FsEntry.st_blocks).sum) = true ∧
    ex_root_node.blocks
      = ex_tree.st_blocks + (ex_tree.descendants.map FsEntry.st_blocks).sum :=
  have h := machine_dir_totals_over_descendants (fun _ => true) "root" "" ex_tree []
    ex_files ex_root_node rfl rfl
  ⟨rfl, rfl, rfl, by decide, h.2.2.1 (by decide), by decide, h.2.2.2.1 (by decide)⟩

/-- C3 (as stated) fails: on a directory holding two sparse files of `2^62`
bytes each the traversal succeeds, the own size plus the own sizes of the
descendants is 9223372036854779904, more than a `long` holds, and the `size`
of the directory's record is -9223372036854771712. -/
theorem machine_dir_totals_counterexample :
    Machine.read_file (fun _ => true) "root" "" ex_sparse_tree []
      = .ok (ex_sparse_root_node,
          [ex_sparse_node "root/a.img", ex_sparse_node "root/b.img", ex_sparse_root_node]) ∧
    ex_sparse_tree.is_dir = true ∧
    ex_sparse_tree.st_size + (ex_sparse_tree.descendants.map FsEntry.st_size).sum
      = 9223372036854779904 ∧
    ex_sparse_root_node.size = -9223372036854771712 ∧
    ex_sparse_root_node.size
      ≠ ex_sparse_tree.st_size + (ex_sparse_tree.descendants.map FsEntry.st_size).sum :=
  ⟨rfl, rfl, by decide, rfl, by decide⟩

/-! ## The program on the 64-bit machine: failure of `lstat` and of `opendir` -/

theorem machine_read_dir_stops (opens : String → Bool) (p : String) :
    ∀ es, (∀ e ∈ es, MachineStops opens e) → ∀ file fs,
      stop_kind (Machine.read_dir opens p es file fs) = first_failure_all opens p es := by
  intro es
  induction es with
  | nil => intro _ file fs; rfl
  | cons e rest ih =>
    intro hall file fs
    obtain ⟨n, st, es1⟩ := e
    have hrest : ∀ e ∈ rest, MachineStops opens e :=
      fun e he => hall e (List.mem_cons_of_mem _ he)
    have he := hall _ (List.mem_cons_self _ _) p n fs
    by_cases hd : not_dot n = true
    · simp only [Machine.read_dir, first_failure_all, FsEntry.d_name, hd, if_true]
      rw [← he]
      cases hr : Machine.read_file opens p n (.mk n st es1) fs with
      | error a =>
        cases a with
        | exit_1 msg => rfl
        | null_readdir => rfl
      | ok r =>
        obtain ⟨child, fsa⟩ := r
        simp only [stop_kind]
        exact ih hrest _ _
    · simp only [Machine.read_dir, first_failure_all, FsEntry.d_name, hd]
      exact ih hrest _ _

theorem machine_read_file_stops (opens : String → Bool) (t : FsEntry) :
    MachineStops opens t := by
  induction t using FsEntry.induct with
  | h n st es ih =>
    intro p f fs
    cases st with
    | none => rfl
    | some sb =>
      by_cases hd : S_ISDIR sb.st_mode = true
      · by_cases ho : opens (entry_path p f) = true
        · have hdir := machine_read_dir_stops opens (entry_path p f) es ih
            { statBuf := sb, children := [], size := sb.st_size, blocks := sb.st_blocks,
              num_files := 0, name := entry_path p f } fs
          simp only [Machine.read_file, FsEntry.first_failure, hd, ho, if_true]
          rw [← hdir]
          cases hr : Machine.read_dir opens (entry_path p f) es
              { statBuf := sb, children := [], size := sb.st_size, blocks := sb.st_blocks,
                num_files := 0, name := entry_path p f } fs with
          | error a => rfl
          | ok r => rfl
        · simp [Machine.read_file, FsEntry.first_failure, hd, ho, stop_kind]
      · simp [Machine.read_file, FsEntry.first_failure, hd, stop_kind]

theorem first_failure_all_spec (opens : String → Bool) :
    ∀ es, (∀ e ∈ es, NoFailure opens e) → ∀ p,
      (first_failure_all opens p es = none ↔
        (lstat_ok_all es = true ∧ dirs_open_all opens p es = true)) ∧
      (first_failure_all opens p es = some .lstat → lstat_ok_all es = false) ∧
      (first_failure_all opens p es = some .opendir → dirs_open_all opens p es = false) := by
  intro es
  induction es with
  | nil => intro _ p; simp [first_failure_all, lstat_ok_all, dirs_open_all]
  | cons e rest ih =>
    intro hall p
    have hrest : ∀ e ∈ rest, NoFailure opens e :=
      fun e he => hall e (List.mem_cons_of_mem _ he)
    obtain ⟨i1, i2, i3⟩ := ih hrest p
    obtain ⟨e1, e2, e3⟩ := hall e (List.mem_cons_self _ _) p e.d_name
    by_cases hd : not_dot e.d_name = true
    · simp only [first_failure_all, lstat_ok_all, dirs_open_all, hd, if_true, Bool.and_eq_true]
      cases hff : e.first_failure opens p e.d_name with
      | none =>
        obtain ⟨hl, ho⟩ := e1.mp hff
        simp only [hl, ho, true_and]
        exact ⟨i1, i2, i3⟩
      | some x =>
        cases x with
        | lstat =>
          have hl := e2 hff
          simp [hl]
        | opendir =>
          have ho := e3 hff
          simp [ho]
    · simp only [first_failure_all, lstat_ok_all, dirs_open_all, hd]
      exact ⟨i1, i2, i3⟩

theorem first_failure_spec (opens : String → Bool) (t : FsEntry) : NoFailure opens t := by
  induction t using FsEntry.induct with
  | h n st es ih =>
    intro p f
    cases st with
    | none => simp [FsEntry.first_failure, FsEntry.lstat_ok]
    | some sb =>
      by_cases hd : S_ISDIR sb.st_mode = true
      · by_cases ho : opens (entry_path p f) = true
        · simp only [FsEntry.first_failure, FsEntry.lstat_ok, FsEntry.dirs_open, hd, ho,
            if_true, Bool.true_and]
          exact first_failure_all_spec opens es ih (entry_path p f)
        · simp [FsEntry.first_failure, FsEntry.lstat_ok, FsEntry.dirs_open, hd, ho]
      · simp [FsEntry.first_failure, FsEntry.lstat_ok, FsEntry.dirs_open, hd]

/-- The outcome of a run on the machine, by the first failure the traversal
meets. -/
theorem machine_main_by_first_failure (argv : List String) (fs : String → FsEntry)
    (opens : String → Bool) :
    ((fs (root_path argv)).first_failure opens (root_path argv) "" = some .lstat →
      ∃ msg, Machine.main argv fs opens
        = some { exit_code := 1, stdout := "", stderr := msg }) ∧
    ((fs (root_path argv)).first_failure opens (root_path argv) "" = some .opendir →
      Machine.main argv fs opens = none) ∧
    ((fs (root_path argv)).first_failure opens (root_path argv) "" = none →
      ∃ out, Machine.main argv fs opens
        = some { exit_code := 0, stdout := out, stderr := "" }) := by
  have hs := machine_read_file_stops opens (fs (root_path argv)) (root_path argv) "" []
  unfold Machine.main
  cases hr : Machine.read_file opens (root_path argv) "" (fs (root_path argv)) [] with
  | error a =>
    cases a with
    | exit_1 msg =>
      rw [hr] at hs
      simp only [stop_kind] at hs
      simp [← hs]
    | null_readdir =>
      rw [hr] at hs
      simp only [stop_kind] at hs
      simp [← hs]
  | ok r =>
    rw [hr] at hs
    simp only [stop_kind] at hs
    simp [← hs]

/-- C6 (as amended): the run exits with code 1 and has written nothing to
standard output when the first failure the traversal meets is a failure of
`lstat`, on the root or on an entry it reaches at any depth; this is the case
whenever `lstat` fails on an entry of the tree and `opendir` succeeds on every
directory of the tree.  The run exits with code 0 when `lstat` succeeds on
every entry of the tree and `opendir` succeeds on every directory of the tree.
A root on which `lstat` fails (a path that does not exist) gives exit code 1
and empty standard output. -/
theorem machine_exit_code (argv : List String) (fs : String → FsEntry)
    (opens : String → Bool) :
    ((fs (root_path argv)).first_failure opens (root_path argv) "" = some .lstat →
      ∃ msg, Machine.main argv fs opens
        = some { exit_code := 1, stdout := "", stderr := msg }) ∧
    ((fs (root_path argv)).dirs_open opens (root_path argv) "" = true →
      (fs (root_path argv)).lstat_ok = false →
      ∃ msg, Machine.main argv fs opens
        = some { exit_code := 1, stdout := "", stderr := msg }) ∧
    ((fs (root_path argv)).dirs_open opens (root_path argv) "" = true →
      (fs (root_path argv)).lstat_ok = true →
      ∃ out, Machine.main argv fs opens
        = some { exit_code := 0, stdout := out, stderr := "" }) ∧
    ((fs (root_path argv)).lstat = none →
      ∃ msg, Machine.main argv fs opens
        = some { exit_code := 1, stdout := "", stderr := msg }) := by
  obtain ⟨m1, -, m3⟩ := machine_main_by_first_failure argv fs opens
  obtain ⟨n1, n2, n3⟩ := first_failure_spec opens (fs (root_path argv)) (root_path argv) ""
  refine ⟨m1, ?_, ?_, ?_⟩
  · intro ho hl
    apply m1
    cases hff : (fs (root_path argv)).first_failure opens (root_path argv) "" with
    | none =>
      have := (n1.mp hff).1
      rw [hl] at this
      cases this
    | some x =>
      cases x with
      | lstat => rfl
      | opendir =>
        have := n3 hff
        rw [ho] at this
        cases this
  · intro ho hl
    exact m3 (n1.mpr ⟨hl, ho⟩)
  · intro hnone
    apply m1
    cases ht : fs (root_path argv) with
    | mk n st es =>
      rw [ht] at hnone
      simp only [FsEntry.lstat] at hnone
      simp [FsEntry.first_failure, hnone]

theorem machine_exit_code_witness :
    (ex_bad_tree.first_failure (fun _ => true) "root" "" = some .lstat ∧
      ex_bad_tree.dirs_open (fun _ => true) "root" "" = true ∧
      ex_bad_tree.lstat_ok = false ∧
      Machine.main ["du", "root"] (fun _ => ex_bad_tree) (fun _ => true)
        = some { exit_code := 1, stdout := "",
                 stderr := "Error: Failed to read file root/sub/gone\n" }) ∧
    (ex_tree.dirs_open (fun _ => true) "root" "" = true ∧ ex_tree.lstat_ok = true ∧
      ∃ out, Machine.main ["du", "root"] (fun _ => ex_tree) (fun _ => true)
        = some { exit_code := 0, stdout := out, stderr := "" }) ∧
    ((FsEntry.mk "" none []).lstat = none ∧
      ∃ msg, Machine.main ["du", "nowhere"] (fun _ => .mk "" none []) (fun _ => true)
        = some { exit_code := 1, stdout := "", stderr := msg }) :=
  ⟨⟨rfl, rfl, rfl, rfl⟩,
   ⟨rfl, rfl,
    (machine_exit_code ["du", "root"] (fun _ => ex_tree) (fun _ => true)).2.2.1 rfl rfl⟩,
   ⟨rfl,
    (machine_exit_code ["du", "nowhere"] (fun _ => .mk "" none []) (fun _ => true)).2.2.2
      rfl⟩⟩

/-- C6 (as stated) fails: on the root directory holding one file and one
subdirectory that cannot be opened, `lstat` succeeds on every entry of the
tree, yet the run does not end with exit code 0: `opendir` returns a null
pointer for the subdirectory, the code hands it to `readdir`, and the run has
no defined exit code. -/
theorem machine_exit_code_counterexample :
    ex_tree.lstat_ok = true ∧
    ex_tree.first_failure (fun p => p != "root/sub") "root" "" = some .opendir ∧
    Machine.main ["du", "root"] (fun _ => ex_tree) (fun p => p != "root/sub") = none ∧
    ¬ ∃ out err, Machine.main ["du", "root"] (fun _ => ex_tree) (fun p => p != "root/sub")
        = some { exit_code := 0, stdout := out, stderr := err } := by
  refine ⟨rfl, rfl, rfl, ?_⟩
  rintro ⟨out, err, h⟩
  have h2 : Machine.main ["du", "root"] (fun _ => ex_tree) (fun p => p != "root/sub") = none :=
    rfl
  rw [h2] at h
  cases h

/-! ## The program on the 64-bit machine: the size column -/

theorem round_div_one (a : Nat) : round_div a 1 = a := by
  simp [round_div, Nat.mod_one]

/-- The conversion to `double` is exact below `2^53`. -/
theorem to_double_exact {n : Int} (h : n.natAbs < 9007199254740992) : to_double n = n := by
  have hu : double_ulp 64 n.natAbs = 1 := by
    simp [double_ulp, h]
  unfold to_double
  simp only [hu, round_div_one, Nat.mul_one]
  by_cases hn : n < 0
  · simp only [hn, if_true]
    omega
  · simp only [hn, if_false]
    omega

/-- Below `2^53` blocks the machine prints the human readable size of the
exact quotient. -/
theorem machine_print_human_exact {blocks : Int} (h : blocks.natAbs < 9007199254740992) :
    Machine.print_human blocks = print_human blocks := by
  unfold Machine.print_human print_human
  rw [to_double_exact h]

/-- C12 (as amended): with `-h`, for every record with `0 ≤ blocks < 2^53`
(below 9007199254740992 blocks, where the conversion of the block count to
`double` is exact) and `bytes = blocks * 512`, the size column is a number, a
suffix and a tab; the suffix is `G` when `bytes > 1073741824`, otherwise `M`
when `bytes > 1048576`, otherwise `K`; the number is `bytes` divided by the
unit of the suffix, rounded to nearest and written with one decimal place when
the quotient is below 10 and with none otherwise.  The thresholds are strict:
1048576 bytes are shown in `K` and 1073741824 bytes in `M`.  5242880 bytes
give `5.0M` and 10485760 bytes give `10M`. -/
theorem machine_human_size_format :
    (∀ (fl : Flags) (f : FileNode), fl.human_readable = true → 0 ≤ f.blocks →
      f.blocks < 9007199254740992 →
      ∃ (unit : Int) (suffix digits : String),
        Machine.size_column fl f = digits ++ suffix ++ "\t" ∧
        ((1073741824 < f.blocks * 512 ∧ unit = 1073741824 ∧ suffix = "G") ∨
         (f.blocks * 512 ≤ 1073741824 ∧ 1048576 < f.blocks * 512 ∧
            unit = 1048576 ∧ suffix = "M") ∨
         (f.blocks * 512 ≤ 1048576 ∧ unit = 1024 ∧ suffix = "K")) ∧
        ((f.blocks * 512 < 10 * unit ∧ ∃ n : Nat, nearest_to n (f.blocks * 512 * 10) unit ∧
            digits = toString (n / 10) ++ "." ++ toString (n % 10)) ∨
         (10 * unit ≤ f.blocks * 512 ∧ ∃ n : Nat, nearest_to n (f.blocks * 512) unit ∧
            digits = toString n))) ∧
    (∀ (fl : Flags) (f : FileNode), fl.human_readable = true →
      Machine.size_column fl f = Machine.print_human f.blocks) ∧
    (5242880 : Int) = 10240 * 512 ∧ Machine.print_human 10240 = "5.0M" ++ "\t" ∧
    (10485760 : Int) = 20480 * 512 ∧ Machine.print_human 20480 = "10M" ++ "\t" ∧
    (1048576 : Int) = 2048 * 512 ∧ Machine.print_human 2048 = "1024K" ++ "\t" ∧
    (1073741824 : Int) = 2097152 * 512 ∧ Machine.print_human 2097152 = "1024M" ++ "\t" := by
  have hcol : ∀ (fl : Flags) (f : FileNode), fl.human_readable = true →
      Machine.size_column fl f = Machine.print_human f.blocks := by
    intro fl f hh
    simp [Machine.size_column, hh]
  refine ⟨?_, hcol, by decide, by decide, by decide, by decide, by decide, by decide,
    by decide, by decide⟩
  intro fl f hh hb hlt
  have hexact : Machine.print_human f.blocks = print_human f.blocks :=
    machine_print_human_exact (by omega)
  have hold := exact_size_format.1 fl f hh hb
  rw [exact_size_format.2.1 fl f hh, ← hexact, ← hcol fl f hh] at hold
  exact hold

theorem machine_human_size_format_witness :
    flags_h.human_readable = true ∧ (0 : Int) ≤ ex_two_mib_node.blocks ∧
    ex_two_mib_node.blocks < 9007199254740992 ∧
    (∃ (unit : Int) (suffix digits : String),
        Machine.size_column flags_h ex_two_mib_node = digits ++ suffix ++ "\t" ∧
        ((1073741824 < ex_two_mib_node.blocks * 512 ∧ unit = 1073741824 ∧ suffix = "G") ∨
         (ex_two_mib_node.blocks * 512 ≤ 1073741824 ∧ 1048576 < ex_two_mib_node.blocks * 512 ∧
            unit = 1048576 ∧ suffix = "M") ∨
         (ex_two_mib_node.blocks * 512 ≤ 1048576 ∧ unit = 1024 ∧ suffix = "K")) ∧
        ((ex_two_mib_node.blocks * 512 < 10 * unit ∧
            ∃ n : Nat, nearest_to n (ex_two_mib_node.blocks * 512 * 10) unit ∧
              digits = toString (n / 10) ++ "." ++ toString (n % 10)) ∨
         (10 * unit ≤ ex_two_mib_node.blocks * 512 ∧
            ∃ n : Nat, nearest_to n (ex_two_mib_node.blocks * 512) unit ∧
              digits = toString n))) ∧
    Machine.size_column flags_h ex_two_mib_node = "2.0M\t" :=
  ⟨rfl, by decide, by decide,
    machine_human_size_format.1 flags_h ex_two_mib_node rfl (by decide) (by decide),
    (machine_human_size_format.2.1 flags_h ex_two_mib_node rfl).trans (by decide)⟩

/-- C12 (as stated) fails: for the record of `2^53 + 2^20 + 1` blocks the
conversion to `double` rounds the block count to `2^53 + 2^20`, the value in
GiB becomes 4294967296.5 and the size column is `4294967296G`; the quotient of
the bytes by the unit lies above 4294967296.5, so its nearest integer is
4294967297 and 4294967296 is not. -/
theorem machine_human_size_counterexample :
    (0 : Int) ≤ ex_rounded_node.blocks ∧
    to_double ex_rounded_node.blocks = 9007199255789568 ∧
    Machine.size_column flags_h ex_rounded_node = "4294967296G" ++ "\t" ∧
    1073741824 < ex_rounded_node.blocks * 512 ∧
    10 * 1073741824 ≤ ex_rounded_node.blocks * 512 ∧
    nearest_to 4294967297 (ex_rounded_node.blocks * 512) 1073741824 ∧
    ¬ nearest_to 4294967296 (ex_rounded_node.blocks * 512) 1073741824 := by
  refine ⟨by decide, by decide, by decide, by decide, by decide, ?_, ?_⟩
  · unfold nearest_to ex_rounded_node
    norm_num
  · unfold nearest_to ex_rounded_node
    norm_num

theorem dirs_open_kids {opens : String → Bool} {p f : String} {t : FsEntry}
    (h : t.dirs_open opens p f = true) :
    ∀ e ∈ t.kids, e.dirs_open opens (entry_path p f) e.d_name = true := by
  obtain ⟨n, st, es⟩ := t
  intro e he
  cases st with
  | none => simp [FsEntry.kids, FsEntry.is_dir, FsEntry.lstat] at he
  | some sb =>
    by_cases hd : S_ISDIR sb.st_mode = true
    · simp only [FsEntry.dirs_open, hd, if_true, Bool.and_eq_true] at h
      simp only [FsEntry.kids, FsEntry.is_dir, FsEntry.lstat, FsEntry.readdir, hd, if_true,
        List.mem_filter] at he
      obtain ⟨hmem, hnd⟩ := he
      have hall := h.2
      clear h
      induction es with
      | nil => cases hmem
      | cons a rest ih =>
        by_cases ha : not_dot a.d_name = true
        · simp only [dirs_open_all, ha, if_true, Bool.and_eq_true] at hall
          rcases List.mem_cons.mp hmem with rfl | hm
          · exact hall.1
          · exact ih hm hall.2
        · simp only [dirs_open_all, ha] at hall
          rcases List.mem_cons.mp hmem with rfl | hm
          · exact absurd hnd ha
          · exact ih hm hall
    · simp [FsEntry.kids, FsEntry.is_dir, FsEntry.lstat, hd] at he

theorem dirs_open_self {opens : String → Bool} {p f : String} {t : FsEntry}
    (h : t.dirs_open opens p f = true) (hd : t.is_dir = true) :
    opens (entry_path p f) = true := by
  obtain ⟨n, st, es⟩ := t
  cases st with
  | none => simp [FsEntry.is_dir, FsEntry.lstat] at hd
  | some sb =>
    simp only [FsEntry.is_dir, FsEntry.lstat] at hd
    simp only [FsEntry.dirs_open, hd, if_true, Bool.and_eq_true] at h
    exact h.1

/-- Two lists of results for the same children are equal when the results
agree child by child. -/
theorem forall₂_unique {R S : FsEntry → (FileNode × List FileNode) → Prop} :
    ∀ (ks : List FsEntry) (rs ss : List (FileNode × List FileNode)),
      List.Forall₂ R ks rs → List.Forall₂ S ks ss →
      (∀ e r s, e ∈ ks → R e r → S e s → r = s) → rs = ss := by
  intro ks rs ss h
  induction h generalizing ss with
  | nil =>
    intro hs _
    cases hs
    rfl
  | @cons e r ks1 rs1 hr _ ih =>
    intro hs huniq
    cases hs with
    | @cons _ s _ ss1 hs1 hs2 =>
      rw [huniq e r s (List.mem_cons_self _ _) hr hs1,
        ih ss1 hs2 (fun e1 r1 s1 he1 => huniq e1 r1 s1 (List.mem_cons_of_mem _ he1))]

theorem forall₂_mem {R : FsEntry → (FileNode × List FileNode) → Prop} :
    ∀ (ks : List FsEntry) (rs : List (FileNode × List FileNode)),
      List.Forall₂ R ks rs →
      List.Forall₂ (fun e r => R e r ∧ e ∈ ks ∧ r ∈ rs) ks rs := by
  intro ks rs h
  induction h with
  | nil => exact List.Forall₂.nil
  | @cons e r ks1 rs1 hr _ ih =>
    refine List.Forall₂.cons ⟨hr, List.mem_cons_self _ _, List.mem_cons_self _ _⟩ ?_
    exact ih.imp (fun a b hab =>
      ⟨hab.1, List.mem_cons_of_mem _ hab.2.1, List.mem_cons_of_mem _ hab.2.2⟩)

theorem machine_read_file_refines (opens : String → Bool) (t : FsEntry) :
    Refines opens t := by
  induction t using FsEntry.induct with
  | h n st es ih =>
    intro p f node new hopen hideal hfits
    have hlstat : (FsEntry.mk n st es).lstat_ok = true :=
      (read_file_returns_iff _ p f []).mp ⟨_, hideal⟩
    have hff := ((first_failure_spec opens (FsEntry.mk n st es) p f).1).mpr ⟨hlstat, hopen⟩
    have hstop := machine_read_file_stops opens (FsEntry.mk n st es) p f []
    rw [hff] at hstop
    cases hm : Machine.read_file opens p f (FsEntry.mk n st es) [] with
    | error a =>
      rw [hm] at hstop
      cases a <;> simp [stop_kind] at hstop
    | ok r =>
      obtain ⟨mnode, mnew⟩ := r
      obtain ⟨sb, hsb, hst, hname, rs, hall, hch, hsize, hblocks, hnum, hnew⟩ :=
        read_file_spec hideal
      obtain ⟨sb2, hsb2, hst2, hname2, ms, mall, mch, msize, mblocks, mnum, mne, mnil, mnew2⟩ :=
        machine_read_file_spec hm
      have hsbeq : sb2 = sb := by
        rw [hsb] at hsb2
        exact (Option.some.inj hsb2).symm
      subst hsbeq
      have hk := kids_subset (FsEntry.mk n st es)
      simp only [FsEntry.readdir] at hk
      have hkopen := dirs_open_kids hopen
      have hsub : ∀ r ∈ rs, ∀ x ∈ r.2, x ∈ new := by
        intro r hr x hx
        rw [hnew]
        simp only [List.nil_append, List.mem_append, List.mem_flatten, List.mem_map,
          List.mem_singleton]
        exact Or.inl ⟨r.2, ⟨r, hr, rfl⟩, hx⟩
      have hall2 := forall₂_mem _ _ hall
      have hrs : ms = rs := by
        refine forall₂_unique _ _ _ mall hall2 ?_
        intro e m r he hm1 hr1
        obtain ⟨hr2, -, hrmem⟩ := hr1
        have := ih e (hk e he) _ _ _ _ (hkopen e he) (by rw [hr2])
          (fun x hx => hfits x (hsub r hrmem x hx))
        rw [hm1] at this
        exact Prod.ext (congrArg Prod.fst (Except.ok.inj this))
          (congrArg Prod.snd (Except.ok.inj this))
      subst hrs
      have hnode_in : fits_long node = true := hfits node (by rw [hnew]; simp)
      simp only [fits_long, Bool.and_eq_true] at hnode_in
      obtain ⟨⟨hin1, hin2⟩, hin3⟩ := hnode_in
      have hfields : mnode.size = node.size ∧ mnode.blocks = node.blocks ∧
          mnode.num_files = node.num_files := by
        by_cases hnil : ms = []
        · obtain ⟨a1, a2, a3⟩ := mnil hnil
          rw [a1, a2, a3, hsize, hblocks, hnum, hnil]
          simp
        · obtain ⟨a1, a2, a3⟩ := mne hnil
          rw [← a1, ← a2, ← a3, msize, mblocks, mnum, ← hsize, ← hblocks, ← hnum]
          exact ⟨wrap_long_of_in_long hin1, wrap_long_of_in_long hin2,
            wrap_long_of_in_long hin3⟩
      have hnodeeq : mnode = node := by
        obtain ⟨a1, a2, a3⟩ := hfields
        cases mnode
        cases node
        simp only [FileNode.mk.injEq]
        simp only at hst hst2 hname hname2 hch mch a1 a2 a3
        exact ⟨hst2.trans hst.symm, mch.trans hch.symm, a1, a2, a3, hname2.trans hname.symm⟩
      rw [mnew2, hnew, hnodeeq]

/-- Below `2^53` blocks the machine writes the size column of the exact
arithmetic. -/
theorem machine_size_column_exact (fl : Flags) (f : FileNode)
    (h : f.blocks.natAbs < 9007199254740992) :
    Machine.size_column fl f = size_column fl f := by
  have hin : in_long (f.blocks * BLOCK_SIZE) = true := by
    simp only [in_long, BLOCK_SIZE, Bool.and_eq_true, decide_eq_true_eq]
    omega
  unfold Machine.size_column size_column
  rw [machine_print_human_exact h, wrap_long_of_in_long hin]

theorem machine_print_files_fold (fl : Flags) :
    ∀ (files : List FileNode) (out : String),
      (∀ r ∈ files, r.blocks.natAbs < 9007199254740992) →
      files.foldl (Machine.print_file fl) out = files.foldl (print_file fl) out := by
  intro files
  induction files with
  | nil => intro out _; rfl
  | cons f rest ih =>
    intro out hall
    have hf : Machine.print_file fl out f = print_file fl out f := by
      unfold Machine.print_file print_file
      rw [machine_size_column_exact fl f (hall f (List.mem_cons_self _ _))]
    rw [List.foldl_cons, List.foldl_cons, hf]
    exact ih _ (fun r hr => hall r (List.mem_cons_of_mem _ hr))

/-- A run on the machine is the run described by `main` above when every
directory of the tree opens, the traversal succeeds, the totals of all records
are values of a `long`, and all block counts are below `2^53`. -/
theorem machine_main_refines (argv : List String) (fs : String → FsEntry)
    (opens : String → Bool) (node : FileNode) (files : List FileNode)
    (hopen : (fs (root_path argv)).dirs_open opens (root_path argv) "" = true)
    (hr : read_file (root_path argv) "" (fs (root_path argv)) [] = .ok (node, files))
    (hfits : ∀ r ∈ files, fits_long r = true)
    (hsmall : ∀ r ∈ files, r.blocks.natAbs < 9007199254740992) :
    Machine.main argv fs opens = some (main argv fs) := by
  have hm := machine_read_file_refines opens (fs (root_path argv)) (root_path argv) "" node
    files hopen hr hfits
  have hsorted : ∀ r ∈ sort_step (parse_input argv).2 files,
      r.blocks.natAbs < 9007199254740992 := by
    intro r hmem
    apply hsmall
    unfold sort_step at hmem
    split at hmem
    · exact (List.perm_insertionSort _ files).mem_iff.mp hmem
    · exact hmem
  have hprint : Machine.print_step (parse_input argv).2 (sort_step (parse_input argv).2 files)
      = print_step (parse_input argv).2 (sort_step (parse_input argv).2 files) := by
    unfold Machine.print_step print_step Machine.print_files print_files
    rw [machine_print_files_fold _ _ _ hsorted]
  simp only [Machine.main, main, hm, hr, hprint]

theorem machine_main_refines_witness :
    ex_tree.dirs_open (fun _ => true) (root_path ["du", "root"]) "" = true ∧
    read_file (root_path ["du", "root"]) "" ex_tree [] = .ok (ex_root_node, ex_files) ∧
    Machine.main ["du", "root"] (fun _ => ex_tree) (fun _ => true)
      = some (main ["du", "root"] (fun _ => ex_tree)) :=
  ⟨rfl, rfl,
    machine_main_refines ["du", "root"] (fun _ => ex_tree) (fun _ => true) ex_root_node
      ex_files rfl rfl (by decide) (by decide)⟩

end FsUtil
